import Mathlib

/-!
# Verification of the YouTube recommender engine core

A shallow embedding of `src/recommendation_engine.py` (class `RecommendationEngine`).

Modelling conventions:
* Python dicts (which preserve insertion order and update values in place) are
  modelled as association lists `List (String × α)` together with `dictGet` /
  `dictInsert`.
* Python floats are modelled as rationals `ℚ`.
* Video records are dynamic dicts in Python; the engine reads the fields below
  (missing fields are read with defaults, so total fields with those defaults
  are a faithful model).  The `score` / `watched_percentage` annotations that
  query operations write onto *copies* of stored records are modelled as
  `Option` fields, `none` meaning the key is absent.
* The external sklearn TF-IDF vectorizer is not part of this repository; the
  engine consumes from it only the row count of `tfidf_matrix` and the vector
  `cosine_similarity(tfidf_matrix[i], tfidf_matrix).flatten()`.  We model that
  derived data directly: `tfidf_matrix : Option (List (List ℚ))` holds, when
  the index is available, the cosine-similarity Gram matrix (row `i` is the
  similarity row of video `i`).  Likewise `np.log1p` is an external numeric
  routine and is passed as an explicit function parameter to `get_trending_videos`.
* Statements that can raise a Python exception which escapes the method are
  embedded with `Except String`; exceptions that the method itself catches
  (the big `try/except` around the TF-IDF ranking) are embedded with `Option`
  (`none` = some exception was raised inside the `try` block and caught).
* Query methods are given in state-passing style, returning the result
  together with the engine state after the call, so that absence of mutation
  of the stores is a provable statement rather than a convention.
-/

/-- A video record, with the fields `RecommendationEngine` reads.
Missing keys default to `""` / `[]` / `0` exactly as the `.get` calls in the
source do.  `score` and `watched_percentage` are the annotations set only on
records returned from queries (`none` = key absent). -/
structure Video where
  id : String
  title : String
  description : String
  channelTitle : String
  categoryId : String
  tags : List String
  viewCount : ℕ
  score : Option ℚ
  watched_percentage : Option ℚ
deriving Repr, DecidableEq

/-- One watch-history entry: `{video_id, timestamp, watched_percentage}`
(`add_to_history`, lines 59-63). -/
structure HistoryItem where
  video_id : String
  timestamp : String
  watched_percentage : ℚ
deriving Repr, DecidableEq

/-- The mutable state of a `RecommendationEngine` instance (lines 10-29).
`content_vectors` is initialised to `None` in the source and never used
afterwards, so it is omitted.  The `vectorizer` object is external
(sklearn); the engine state keeps only the derived data read from it:
`video_ids` and `tfidf_matrix` (see the module docstring). -/
structure RecommendationEngine where
  videos : List (String × Video)
  watch_history : List (String × List HistoryItem)
  video_ids : List String
  tfidf_matrix : Option (List (List ℚ))
deriving Repr, DecidableEq

/-- The freshly constructed engine (`__init__`). -/
def RecommendationEngine.init : RecommendationEngine :=
  { videos := [], watch_history := [], video_ids := [], tfidf_matrix := none }

/-- Python dict lookup `d[k]` / `k in d`, on an insertion-ordered association list. -/
def dictGet (d : List (String × α)) (k : String) : Option α :=
  (d.find? (fun p => p.1 = k)).map (·.2)

/-- Python dict assignment `d[k] = v`: updates the value in place (keeping the
key's position) when the key exists, appends otherwise.  (A Python dict never
holds a key twice, so replacing the first occurrence is a faithful model.) -/
def dictInsert (d : List (String × α)) (k : String) (v : α) : List (String × α) :=
  match d with
  | [] => [(k, v)]
  | p :: t => if p.1 = k then (k, v) :: t else p :: dictInsert t k v

/-- Python truthiness of an optional string argument (`if user_id:`,
`if video_id:`, `if category_id:`): `None` and `""` are falsy. -/
def isTruthy : Option String → Bool
  | none => false
  | some s => s ≠ ""

/-- `len(set(a) & set(b))` for lists of strings. -/
def setInterCard (a b : List String) : ℕ :=
  (a.dedup.filter (fun x => x ∈ b)).length

/-- `len(set(a) | set(b))` for lists of strings
(`|A ∪ B| = |A| + |B \ A|`). -/
def setUnionCard (a b : List String) : ℕ :=
  a.dedup.length + (b.dedup.filter (fun x => x ∉ a)).length

/-- `len(set(a) & set(b)) / len(set(a) | set(b))` (ℚ-division; the callers
guard against empty sets, and `q / 0 = 0` is never hit under those guards). -/
def jaccardQ (a b : List String) : ℚ :=
  (setInterCard a b : ℚ) / (setUnionCard a b : ℚ)

/-- `calculate_similarity` (lines 150-186): the manual fallback scorer.
Same channel `+0.5`, same category `+0.3`, tag-set Jaccard `* 0.2` (only when
both tag sets are non-empty), capped at `1.0`.  The `features_a`/`features_b`
lists built at lines 154-166 are dead locals in the source and are omitted. -/
def calculate_similarity (a b : Video) : ℚ :=
  let score0 : ℚ := 0
  let score1 := if a.channelTitle = b.channelTitle then score0 + 5/10 else score0
  let score2 := if a.categoryId = b.categoryId then score1 + 3/10 else score1
  -- `tags_a = set(...)`, `tags_b = set(...)`; `if tags_a and tags_b:`
  let score3 := if a.tags.dedup ≠ [] ∧ b.tags.dedup ≠ [] then
      score2 + jaccardQ a.tags b.tags * (2/10)
    else score2
  -- `min(score, 1.0)`: written out as Python computes it
  if score3 ≤ 1 then score3 else 1

/-- `add_to_history` (lines 45-74).  `timestamp : Option String` models the
`timestamp=None` default; `now` is the external `datetime.now().isoformat()`
used when the given timestamp is falsy (`None` or `""`).  Note the source
creates the user's (empty) history list *before* checking that the video
exists, so that side effect persists even on the warning path. -/
def add_to_history (st : RecommendationEngine) (user_id video_id : String)
    (timestamp : Option String) (watched_percentage : ℚ) (now : String) :
    RecommendationEngine :=
  let ts := match timestamp with
    | none => now
    | some t => if t = "" then now else t
  let wh := if (dictGet st.watch_history user_id).isSome then st.watch_history
            else st.watch_history ++ [(user_id, [])]
  if (dictGet st.videos video_id).isNone then
    -- `print warning; return`
    { st with watch_history := wh }
  else
    let item : HistoryItem := ⟨video_id, ts, watched_percentage⟩
    let old := (dictGet wh user_id).getD []  -- key present by construction
    let cleaned := old.filter (fun it => it.video_id ≠ video_id)
    { st with watch_history := dictInsert wh user_id (cleaned ++ [item]) }

/-- `clear_history` (lines 99-107): truthy `user_id` resets that user's list
(if present); falsy `user_id` (`None` or `""`) resets the whole store. -/
def clear_history (st : RecommendationEngine) (user_id : Option String) :
    RecommendationEngine :=
  if isTruthy user_id then
    if (dictGet st.watch_history (user_id.getD "")).isSome then
      { st with watch_history := dictInsert st.watch_history (user_id.getD "") [] }
    else st
  else { st with watch_history := [] }

/-- The `score` sort key `lambda x: x["score"]` used on annotated records
(the key is always present on the records being sorted). -/
def scoreKey (v : Video) : ℚ := v.score.getD 0

/-- `if category_id and video.get("categoryId") != category_id: continue` —
`true` when the record survives the (possibly absent) category filter. -/
def passesCategory (category : Option String) (v : Video) : Bool :=
  if isTruthy category then v.categoryId = category.getD "" else true

/-- `get_user_history` (lines 76-97): sort the user's entries by timestamp
descending (Python `sorted` is stable), truncate to `limit`, then return
*copies* of the stored records annotated with `watched_percentage` (entries
whose video is gone from the catalog are skipped). -/
def get_user_history (st : RecommendationEngine) (user_id : String) (limit : ℕ) :
    List Video × RecommendationEngine :=
  match dictGet st.watch_history user_id with
  | none => ([], st)
  | some hist =>
    let sorted := List.insertionSort
      (fun a b : HistoryItem => b.timestamp ≤ a.timestamp) hist
    (((sorted.take limit).filterMap (fun item =>
        (dictGet st.videos item.video_id).map
          (fun v => { v with watched_percentage := some item.watched_percentage }))), st)

/-- `_update_content_vectors` (lines 109-148): no-op on an empty catalog,
otherwise `video_ids` becomes the catalog's key list and the TF-IDF matrix
is rebuilt by the external vectorizer.  The rebuild outcome is the `fit`
parameter: `some G` on success (`G` the similarity Gram data, see module
docstring), `none` when `fit_transform` raised and line 148 stored `None`. -/
def update_content_vectors (st : RecommendationEngine)
    (fit : Option (List (List ℚ))) : RecommendationEngine :=
  if st.videos = [] then st
  else { st with video_ids := st.videos.map (·.1), tfidf_matrix := fit }

/-- `add_videos` (lines 31-43): no-op on an empty batch; otherwise each record
is inserted/overwritten under its `id` key, then the vectors are rebuilt. -/
def add_videos (st : RecommendationEngine) (videos_list : List Video)
    (fit : Option (List (List ℚ))) : RecommendationEngine :=
  if videos_list = [] then st
  else
    update_content_vectors
      { st with videos := videos_list.foldl (fun d v => dictInsert d v.id v) st.videos }
      fit

/-- `numpy.argsort` of a score row (ascending).  numpy's default sort leaves
the order of equal values unspecified; we model it as a stable sort on the
index list (no claim below depends on tie order: the concrete inputs used
have pairwise-distinct scores). -/
def argsortAsc (l : List ℚ) : List ℕ :=
  List.insertionSort (fun i j => l.getD i 0 ≤ l.getD j 0) (List.range l.length)

/-- `similarity_scores.argsort()[:-limit-1:-1]` (line 213): the indices of the
top `limit` scores in descending order (the whole reversed order when
`limit ≥ len`, the empty list when `limit = 0`). -/
def argsortTop (l : List ℚ) (limit : ℕ) : List ℕ :=
  (argsortAsc l).reverse.take limit

/-- The comprehension `[idx for idx in similar_indices if
self.video_ids[idx] != source_video_id]` (lines 216-217); `none` when an
index is out of range for `video_ids` (Python `IndexError`, caught by the
surrounding `try`). -/
def filterSourceIdx (ids : List String) (source : String) :
    List ℕ → Option (List ℕ)
  | [] => some []
  | i :: rest =>
    match ids[i]? with
    | none => none
    | some vid =>
      match filterSourceIdx ids source rest with
      | none => none
      | some tail => if vid = source then some tail else some (i :: tail)

/-- The category-filter loop of the TF-IDF branch (lines 221-228): looks up
each index's video, keeps those matching the filter, annotating a copy with
the similarity score.  `none` on an `IndexError`/`KeyError` (caught by the
surrounding `try`). -/
def tfidfCollectCat (st : RecommendationEngine) (row : List ℚ) (c : String) :
    List ℕ → Option (List Video)
  | [] => some []
  | i :: rest =>
    match st.video_ids[i]? with
    | none => none
    | some vid =>
      match dictGet st.videos vid with
      | none => none
      | some video =>
        match tfidfCollectCat st row c rest with
        | none => none
        | some tail =>
          if video.categoryId = c then
            some ({ video with score := some (row.getD i 0) } :: tail)
          else some tail

/-- The unfiltered collection loop of the TF-IDF branch (lines 232-236). -/
def tfidfCollect (st : RecommendationEngine) (row : List ℚ) :
    List ℕ → Option (List Video)
  | [] => some []
  | i :: rest =>
    match st.video_ids[i]? with
    | none => none
    | some vid =>
      match dictGet st.videos vid with
      | none => none
      | some video =>
        match tfidfCollect st row rest with
        | none => none
        | some tail => some ({ video with score := some (row.getD i 0) } :: tail)

/-- The candidate index pool the TF-IDF branch actually ranks over: the top
`limit` indices by similarity with the source video filtered out (lines
204-217).  The `.index` call raises `ValueError` when the source id is not in
`video_ids`; all such exceptions are `none` (caught by the `try`). -/
def tfidfPool (st : RecommendationEngine) (G : List (List ℚ)) (source : String)
    (limit : ℕ) : Option (List ℕ) :=
  match st.video_ids.findIdx? (fun x => x = source) with
  | none => none
  | some source_index =>
    match G[source_index]? with
    | none => none
    | some row => filterSourceIdx st.video_ids source (argsortTop row limit)

/-- "Method 1" of `get_content_based_recommendations` (lines 201-241): the
TF-IDF ranking inside `try`.  Returns `none` when any statement inside the
`try` raises (the caller then falls through to the manual method). -/
def tfidfMethod (st : RecommendationEngine) (G : List (List ℚ)) (source : String)
    (limit : ℕ) (category : Option String) : Option (List Video) :=
  match st.video_ids.findIdx? (fun x => x = source) with
  | none => none
  | some source_index =>
    match G[source_index]? with
    | none => none
    | some row =>
      match filterSourceIdx st.video_ids source (argsortTop row limit) with
      | none => none
      | some similar_indices =>
        if isTruthy category then
          -- note: the category filter runs on the already-truncated pool
          match tfidfCollectCat st row (category.getD "") similar_indices with
          | none => none
          | some filtered => some (filtered.take limit)
        else
          tfidfCollect st row (similar_indices.take limit)

/-- "Method 2" of `get_content_based_recommendations` (lines 243-266): the
manual fallback.  Iterates the catalog, skips the source, applies the
category filter, keeps strictly-positive `calculate_similarity` scores,
sorts by score descending (stable) and truncates. -/
def manualRecs (st : RecommendationEngine) (source_video : Video)
    (source : String) (limit : ℕ) (category : Option String) : List Video :=
  let recommendations := st.videos.filterMap (fun p =>
    if p.1 = source then none
    else if passesCategory category p.2 = false then none
    else
      let s := calculate_similarity source_video p.2
      if 0 < s then some { p.2 with score := some s } else none)
  (List.insertionSort (fun a b : Video => scoreKey b ≤ scoreKey a)
    recommendations).take limit

/-- `get_content_based_recommendations` (lines 188-266).  Line 194 reads
`if not self.tfidf_matrix is not None and len(self.video_ids) !=
self.tfidf_matrix.shape[0]:`, which parses as
`(tfidf_matrix is None) and (len(video_ids) != tfidf_matrix.shape[0])`; when
`tfidf_matrix` is `None` the right conjunct evaluates `None.shape` and the
method raises `AttributeError` (this is *outside* the `try` block, so it
escapes to the caller).  When the matrix is present that conjunction is
`False` by short-circuit, so the `_update_content_vectors` call at line 195
never runs and Method 1 is attempted; if Method 1 raises internally the
manual Method 2 runs. -/
def get_content_based_recommendations (st : RecommendationEngine)
    (source_video_id : String) (limit : ℕ) (category_id : Option String) :
    Except String (List Video) × RecommendationEngine :=
  match dictGet st.videos source_video_id with
  | none => (Except.ok [], st)
  | some source_video =>
    match st.tfidf_matrix with
    | none =>
      (Except.error "AttributeError: NoneType object has no attribute shape", st)
    | some G =>
      match tfidfMethod st G source_video_id limit category_id with
      | some recs => (Except.ok recs, st)
      | none =>
        (Except.ok (manualRecs st source_video source_video_id limit category_id), st)

/-- An entry of the `similar_users` list (lines 290-293). -/
structure SimilarUser where
  user_id : String
  similarity : ℚ
deriving Repr, DecidableEq

/-- The `similar_users` accumulation of `get_collaborative_recommendations`
(lines 277-293): every other user with a positive Jaccard overlap of
watched-video-id sets, in dict iteration order. -/
def similarUsersOf (st : RecommendationEngine) (user_id : String)
    (user_videos : List String) : List SimilarUser :=
  st.watch_history.foldl (fun acc p =>
    if p.1 = user_id then acc
    else
      let other_videos := p.2.map (·.video_id)
      if user_videos ≠ [] ∧ other_videos ≠ [] then
        let similarity := jaccardQ user_videos other_videos
        if 0 < similarity then acc ++ [⟨p.1, similarity⟩] else acc
      else acc) []

/-- The `candidate_videos` accumulation of `get_collaborative_recommendations`
(lines 299-327): for each of the top neighbours, their history items
contribute `similarity * (0.5 + 0.5 * watched_percentage / 100)` to the
candidate's score, skipping videos the target user watched, videos missing
from the catalog, and category-filter misses. -/
def candidateVideosOf (st : RecommendationEngine) (user_videos : List String)
    (category_id : Option String) (top_users : List SimilarUser) :
    List (String × ℚ) :=
  top_users.foldl (fun cand su =>
    ((dictGet st.watch_history su.user_id).getD []).foldl (fun cand item =>
      if item.video_id ∈ user_videos then cand
      else match dictGet st.videos item.video_id with
        | none => cand
        | some video =>
          if passesCategory category_id video = false then cand
          else
            let c := su.similarity * (5/10 + 5/10 * item.watched_percentage / 100)
            match dictGet cand item.video_id with
            | some s => dictInsert cand item.video_id (s + c)
            | none => dictInsert cand item.video_id c) cand) []

/-- `get_collaborative_recommendations` (lines 268-339). -/
def get_collaborative_recommendations (st : RecommendationEngine)
    (user_id : String) (limit : ℕ) (category_id : Option String) :
    List Video × RecommendationEngine :=
  match dictGet st.watch_history user_id with
  | none => ([], st)
  | some uh =>
    if uh = [] then ([], st)
    else
      let user_videos := uh.map (·.video_id)
      -- line 296: stable sort by similarity descending; line 301: top 5
      let top_users := (List.insertionSort
        (fun a b : SimilarUser => b.similarity ≤ a.similarity)
        (similarUsersOf st user_id user_videos)).take 5
      -- lines 329-339: annotate copies, stable sort by score desc, truncate
      let recommendations :=
        (candidateVideosOf st user_videos category_id top_users).filterMap
          (fun p => (dictGet st.videos p.1).map
            (fun v => { v with score := some p.2 }))
      ((List.insertionSort (fun a b : Video => scoreKey b ≤ scoreKey a)
        recommendations).take limit, st)

/-- `get_trending_videos` (lines 407-435).  `log1p` is numpy's external
`np.log1p`, passed explicitly; the score is `log1p(view_count)/20` for a
positive view count and `0/20` otherwise (not clamped). -/
def get_trending_videos (st : RecommendationEngine) (log1p : ℚ → ℚ)
    (category_id : Option String) (limit : ℕ) :
    List Video × RecommendationEngine :=
  if st.videos = [] then ([], st)
  else
    let trending := st.videos.filterMap (fun p =>
      if passesCategory category_id p.2 then some p.2 else none)
    let sortedv := List.insertionSort
      (fun a b : Video => b.viewCount ≤ a.viewCount) trending
    -- `log_views = np.log1p(view_count) if view_count > 0 else 0`
    let scored := sortedv.map (fun v =>
      let log_views : ℚ := if 0 < v.viewCount then log1p (v.viewCount : ℚ) else 0
      { v with score := some (log_views / 20) })
    (scored.take limit, st)

/-- An `all_recs` entry of the hybrid merge (lines 365-384). -/
structure HybridEntry where
  video : Video
  content_score : ℚ
  collab_score : ℚ
deriving Repr, DecidableEq

/-- The `all_recs` merge of `get_hybrid_recommendations` (lines 364-384):
content records are inserted with their score as `content_score`, then
collaborative records either update the `collab_score` of an existing entry
or are inserted with `content_score = 0`. -/
def hybridMerge (content_recs collab_recs : List Video) :
    List (String × HybridEntry) :=
  let all_recs := content_recs.foldl
    (fun d v => dictInsert d v.id ⟨v, scoreKey v, 0⟩)
    ([] : List (String × HybridEntry))
  collab_recs.foldl (fun d v =>
    match dictGet d v.id with
    | some e => dictInsert d v.id ⟨e.video, e.content_score, scoreKey v⟩
    | none => dictInsert d v.id ⟨v, 0, scoreKey v⟩) all_recs

/-- `get_hybrid_recommendations` (lines 341-405).  Content recommendations are
requested only when `video_id` is truthy and in the catalog — and may raise
(see `get_content_based_recommendations`), in which case the exception escapes
from the hybrid call as well.  With both lists non-empty the results are fused
by id with weights `0.6/0.4`; with one list, that list is returned; with
neither, the trending fallback runs. -/
def get_hybrid_recommendations (st : RecommendationEngine) (log1p : ℚ → ℚ)
    (user_id video_id : Option String) (category_id : Option String) (limit : ℕ) :
    Except String (List Video) × RecommendationEngine :=
  let contentRes : Except String (List Video) :=
    if isTruthy video_id ∧ (dictGet st.videos (video_id.getD "")).isSome then
      (get_content_based_recommendations st (video_id.getD "") limit category_id).1
    else Except.ok []
  match contentRes with
  | Except.error e => (Except.error e, st)
  | Except.ok content_recs =>
    let collab_recs :=
      if isTruthy user_id ∧ (dictGet st.watch_history (user_id.getD "")).isSome then
        (get_collaborative_recommendations st (user_id.getD "") limit category_id).1
      else []
    if content_recs ≠ [] ∧ collab_recs ≠ [] then
      let hybrid_recs := (hybridMerge content_recs collab_recs).map (fun p =>
        { p.2.video with
            score := some (6/10 * p.2.content_score + 4/10 * p.2.collab_score) })
      ((Except.ok ((List.insertionSort
          (fun a b : Video => scoreKey b ≤ scoreKey a) hybrid_recs).take limit)), st)
    else if content_recs ≠ [] then (Except.ok content_recs, st)
    else if collab_recs ≠ [] then (Except.ok collab_recs, st)
    else (Except.ok (get_trending_videos st log1p category_id limit).1, st)

/-! ## Concrete fixtures used in counterexamples and witnesses -/

/-- A video record with the given key fields (remaining fields at their
Python `.get` defaults). -/
def mkVideo (id channel cat : String) (tags : List String) (vc : ℕ) : Video :=
  { id := id, title := "", description := "", channelTitle := channel,
    categoryId := cat, tags := tags, viewCount := vc, score := none,
    watched_percentage := none }

/-- A state whose TF-IDF rebuild failed (`tfidf_matrix = None`, line 148)
while the catalog holds one video — e.g. after `add_videos` of a video whose
document is only stop-words, making `fit_transform` raise. -/
def engineC1 : RecommendationEngine :=
  { videos := [("v1", mkVideo "v1" "c" "x" [] 5)],
    watch_history := [], video_ids := ["v1"], tfidf_matrix := none }

/-- Catalog with videos `A`, `B`; user `u` watched `A`; users `x`, `y`, `z`
each watched `A` and `B` (with `B` watched to 100%). -/
def engineC2 : RecommendationEngine :=
  { videos := [("A", mkVideo "A" "ch" "x" [] 10), ("B", mkVideo "B" "ch" "x" [] 20)],
    watch_history :=
      [("u", [⟨"A", "t1", 100⟩]),
       ("x", [⟨"A", "t1", 100⟩, ⟨"B", "t2", 100⟩]),
       ("y", [⟨"A", "t1", 100⟩, ⟨"B", "t2", 100⟩]),
       ("z", [⟨"A", "t1", 100⟩, ⟨"B", "t2", 100⟩])],
    video_ids := ["A", "B"], tfidf_matrix := none }

/-- Catalog `s` (category `x`), `a` (category `x`), `b` (category `m`), with a
healthy TF-IDF index; similarities from `s`: `a ↦ 0.9`, `b ↦ 0.5`. -/
def engineC3 : RecommendationEngine :=
  { videos := [("s", mkVideo "s" "c1" "x" [] 1),
               ("a", mkVideo "a" "c2" "x" [] 2),
               ("b", mkVideo "b" "c3" "m" [] 3)],
    watch_history := [], video_ids := ["s", "a", "b"],
    tfidf_matrix := some [[1, 9/10, 1/2], [9/10, 1, 2/5], [1/2, 2/5, 1]] }

/-- One catalog video and two users with one watch each. -/
def engineC5 : RecommendationEngine :=
  { videos := [("A", mkVideo "A" "ch" "x" [] 10)],
    watch_history := [("u2", [⟨"A", "t1", 50⟩]), ("u3", [⟨"A", "t2", 70⟩])],
    video_ids := ["A"], tfidf_matrix := some [[1]] }

/-! ## Dictionary lemmas -/

theorem dictGet_insert_self (d : List (String × α)) (k : String) (v : α) :
    dictGet (dictInsert d k v) k = some v := by
  induction d with
  | nil => simp [dictInsert, dictGet]
  | cons p t ih =>
    by_cases hp : p.1 = k
    · simp [dictInsert, dictGet, hp]
    · simpa [dictInsert, dictGet, hp] using ih

theorem dictGet_insert_ne (d : List (String × α)) (k k' : String) (v : α)
    (hne : k' ≠ k) : dictGet (dictInsert d k v) k' = dictGet d k' := by
  induction d with
  | nil => simp [dictInsert, dictGet, Ne.symm hne]
  | cons p t ih =>
    by_cases hp : p.1 = k
    · by_cases hp' : p.1 = k'
      · exact absurd (hp' ▸ hp) (by simpa using hne)
      · simp [dictInsert, dictGet, hp, hp', Ne.symm hne]
    · by_cases hp' : p.1 = k'
      · simp [dictInsert, dictGet, hp, hp', hne]
      · simpa [dictInsert, dictGet, hp, hp'] using ih

theorem dictGet_mem {d : List (String × α)} {k : String} {v : α}
    (h : dictGet d k = some v) : (k, v) ∈ d := by
  unfold dictGet at h
  rcases hf : d.find? (fun p => p.1 = k) with _ | p
  · rw [hf] at h; simp at h
  · rw [hf] at h
    have hp := List.find?_some hf
    have hm := List.mem_of_find?_eq_some hf
    simp only [Option.map_some', Option.some_inj] at h
    have h1 : p.1 = k := by simpa using hp
    have : p = (k, v) := by
      cases p; simp_all
    exact this ▸ hm

theorem dictGet_eq_none {d : List (String × α)} {k : String}
    (h : dictGet d k = none) : ∀ p ∈ d, p.1 ≠ k := by
  intro p hp
  unfold dictGet at h
  rcases hf : d.find? (fun q => q.1 = k) with _ | q
  · have := List.find?_eq_none.mp hf p hp
    simpa using this
  · rw [hf] at h; simp at h

theorem dictInsert_forall {P : String × α → Prop} {d : List (String × α)}
    {k : String} {v : α} (h : ∀ q ∈ d, P q) (hkv : P (k, v)) :
    ∀ q ∈ dictInsert d k v, P q := by
  induction d with
  | nil => simpa [dictInsert] using hkv
  | cons p t ih =>
    by_cases hp : p.1 = k
    · simp only [dictInsert, hp, if_true]
      intro q hq
      rcases List.mem_cons.mp hq with rfl | hq
      · exact hkv
      · exact h q (List.mem_cons_of_mem _ hq)
    · simp only [dictInsert, hp, if_false]
      intro q hq
      rcases List.mem_cons.mp hq with rfl | hq
      · exact h q (List.mem_cons_self _ _)
      · exact ih (fun r hr => h r (List.mem_cons_of_mem _ hr)) q hq

theorem dictInsert_keys_nodup {d : List (String × α)} {k : String} {v : α}
    (h : (d.map (·.1)).Nodup) : ((dictInsert d k v).map (·.1)).Nodup := by
  induction d with
  | nil => simp [dictInsert]
  | cons p t ih =>
    simp only [List.map_cons, List.nodup_cons] at h
    by_cases hp : p.1 = k
    · simp only [dictInsert, hp, if_true, List.map_cons, List.nodup_cons]
      exact ⟨by simpa [hp] using h.1, h.2⟩
    · simp only [dictInsert, hp, if_false, List.map_cons, List.nodup_cons]
      constructor
      · intro hmem
        rcases List.mem_map.mp hmem with ⟨q, hq, hq1⟩
        -- q ∈ dictInsert t k v with q.1 = p.1
        have hkeys : ∀ q ∈ dictInsert t k v, q.1 = k ∨ q.1 ∈ t.map (·.1) := by
          refine dictInsert_forall (fun r hr => ?_) (by simp)
          exact Or.inr (List.mem_map.mpr ⟨r, hr, rfl⟩)
        rcases hkeys q hq with h1 | h1
        · exact hp (hq1 ▸ h1)
        · exact h.1 (hq1 ▸ h1)
      · exact ih h.2

theorem foldl_inv {α γ : Type} (P : α → Prop) (step : α → γ → α)
    (l : List γ) : ∀ (init : α), P init →
    (∀ a x, x ∈ l → P a → P (step a x)) → P (l.foldl step init) := by
  induction l with
  | nil => intro init h0 _; exact h0
  | cons x t ih =>
    intro init h0 hstep
    exact ih (step init x) (hstep init x (by simp) h0)
      (fun a y hy ha => hstep a y (List.mem_cons_of_mem _ hy) ha)

theorem mem_of_mem_sortTake {α : Type} {r : α → α → Prop} [DecidableRel r]
    {l : List α} {n : ℕ} {x : α}
    (hx : x ∈ (List.insertionSort r l).take n) : x ∈ l :=
  (List.mem_insertionSort r).mp (List.mem_of_mem_take hx)

theorem forall_mem_sortTake {α : Type} (P : α → Prop) (r : α → α → Prop)
    [DecidableRel r] {l : List α} (n : ℕ) (h : ∀ x ∈ l, P x) :
    ∀ x ∈ (List.insertionSort r l).take n, P x :=
  fun x hx => h x (mem_of_mem_sortTake hx)

theorem nodup_map_sortTake {α β : Type} [DecidableEq β] (f : α → β)
    (r : α → α → Prop) [DecidableRel r] {l : List α} (n : ℕ)
    (h : (l.map f).Nodup) : (((List.insertionSort r l).take n).map f).Nodup := by
  have hperm : List.Perm ((List.insertionSort r l).map f) (l.map f) :=
    (List.perm_insertionSort r l).map f
  have hnodup : ((List.insertionSort r l).map f).Nodup := hperm.nodup_iff.mpr h
  exact List.Nodup.sublist (List.Sublist.map f (List.take_sublist n _)) hnodup

/-! ## Bounds for the similarity scores -/

theorem jaccardQ_nonneg (a b : List String) : 0 ≤ jaccardQ a b := by
  unfold jaccardQ
  positivity

theorem jaccardQ_le_one (a b : List String) : jaccardQ a b ≤ 1 := by
  unfold jaccardQ
  rcases Nat.eq_zero_or_pos (setUnionCard a b) with h | h
  · simp [h]
  · rw [div_le_one (by exact_mod_cast h)]
    have hle : setInterCard a b ≤ setUnionCard a b := by
      unfold setInterCard setUnionCard
      calc (a.dedup.filter (fun x => x ∈ b)).length
          ≤ a.dedup.length := List.length_filter_le _ _
        _ ≤ _ := Nat.le_add_right _ _
    exact_mod_cast hle

theorem jaccardQ_self {t : List String} (ht : t ≠ []) : jaccardQ t t = 1 := by
  unfold jaccardQ setInterCard setUnionCard
  have h1 : t.dedup.filter (fun x => x ∈ t) = t.dedup := by
    rw [List.filter_eq_self]
    intro a ha
    simpa using List.mem_dedup.mp ha
  have h2 : t.dedup.filter (fun x => x ∉ t) = [] := by
    rw [List.filter_eq_nil_iff]
    intro a ha
    simp [List.mem_dedup.mp ha]
  rw [h1, h2]
  have hne : t.dedup ≠ [] := by simpa [List.dedup_eq_nil] using ht
  have hlen : (0:ℚ) < t.dedup.length := by exact_mod_cast List.length_pos.mpr hne
  simp only [List.length_nil, Nat.add_zero]
  exact div_self (ne_of_gt hlen)

theorem calculate_similarity_nonneg (a b : Video) :
    0 ≤ calculate_similarity a b := by
  unfold calculate_similarity
  have hj := jaccardQ_nonneg a.tags b.tags
  simp only []
  split_ifs <;> nlinarith

theorem calculate_similarity_le_one (a b : Video) :
    calculate_similarity a b ≤ 1 := by
  unfold calculate_similarity
  simp only []
  split_ifs <;> first | assumption | norm_num

/-! ## C4: the manual scorer on a video against itself -/

/-- C4 counterexample: the claim says `calculate_similarity(v, v) = 1.0` for
*every* record `v`; for a video with no tags the tag branch is skipped and the
self-similarity is `0.5 + 0.3 = 0.8`. -/
theorem c4_counterexample :
    calculate_similarity (mkVideo "v" "ch" "x" [] 0) (mkVideo "v" "ch" "x" [] 0) = 4/5 ∧
    ¬ calculate_similarity (mkVideo "v" "ch" "x" [] 0) (mkVideo "v" "ch" "x" [] 0) = 1 := by
  constructor <;> norm_num [calculate_similarity, mkVideo]

/-- C4 (amended): the manual scorer applied to a record against itself yields
`1.0` when the record has at least one tag, and `0.8` (the maximum attainable
without tags: channel `0.5` + category `0.3`) when its tag list is empty. -/
theorem c4_amended (v : Video) :
    calculate_similarity v v = if v.tags = [] then 4/5 else 1 := by
  unfold calculate_similarity
  by_cases ht : v.tags = []
  · simp [ht]
    norm_num
  · have hd : ¬ v.tags.dedup = [] := by simpa [List.dedup_eq_nil] using ht
    simp [ht, hd, jaccardQ_self ht]
    norm_num

/-! ## C1: behaviour when the TF-IDF index is unavailable -/

/-- C1 (code bug): with the catalog non-empty but the TF-IDF matrix
unavailable (`tfidf_matrix = None` after a failed rebuild, line 148), the
staleness check at line 194 — `if not self.tfidf_matrix is not None and
len(self.video_ids) != self.tfidf_matrix.shape[0]:` — evaluates `None.shape`
and raises `AttributeError` *outside* the `try` block, instead of falling
back to the manual scorer: the call does not return a result list. -/
theorem c1_tfidf_none_raises :
    (get_content_based_recommendations engineC1 "v1" 8 none).1 =
      Except.error "AttributeError: NoneType object has no attribute shape" := by
  rfl

/-! ## C5: clear_history -/

/-- C5 counterexample: the claim quantifies over *every* `user_id`.  For the
falsy user id `""` the `if user_id:` branch at line 101 is skipped and the
`else` branch wipes the whole store, so another user's (`"u2"`) previously
non-empty retrievable history becomes empty. -/
theorem c5_counterexample :
    (get_user_history (clear_history engineC5 (some "")) "u2" 20).1 = [] ∧
    (get_user_history engineC5 "u2" 20).1 ≠ [] := by
  constructor
  · rfl
  · simp [get_user_history, clear_history, engineC5, dictGet, mkVideo]

/-- C5 (amended): for every *non-empty* `user_id` `u`, `clear_history(u)`
empties `u`'s retrievable watch history and leaves every other user's
retrievable history unchanged; a falsy `user_id` (`None`/`""`) instead clears
all users' history. -/
theorem c5_amended (st : RecommendationEngine) (u u2 : String) (lim lim2 : ℕ)
    (hu : u ≠ "") (hne : u2 ≠ u) :
    (get_user_history (clear_history st (some u)) u lim).1 = [] ∧
    (get_user_history (clear_history st (some u)) u2 lim2).1 =
      (get_user_history st u2 lim2).1 := by
  have htruthy : isTruthy (some u) = true := by simp [isTruthy, hu]
  have hwh : (clear_history st (some u)).watch_history =
      (if (dictGet st.watch_history u).isSome then
        dictInsert st.watch_history u [] else st.watch_history) := by
    unfold clear_history
    rw [htruthy]
    simp only [if_true, Option.getD_some]
    by_cases hmem : (dictGet st.watch_history u).isSome
    · simp [hmem]
    · simp [hmem]
  have hvid : (clear_history st (some u)).videos = st.videos := by
    unfold clear_history
    rw [htruthy]
    simp only [if_true, Option.getD_some]
    by_cases hmem : (dictGet st.watch_history u).isSome
    · simp [hmem]
    · simp [hmem]
  refine ⟨?_, ?_⟩
  · unfold get_user_history
    simp only [hwh, hvid]
    by_cases hmem : (dictGet st.watch_history u).isSome
    · simp [hmem, dictGet_insert_self]
    · rcases hh : dictGet st.watch_history u with _ | l
      · simp [hmem, hh]
      · rw [hh] at hmem; simp at hmem
  · unfold get_user_history
    simp only [hwh, hvid]
    by_cases hmem : (dictGet st.watch_history u).isSome
    · simp only [hmem, if_true]
      rw [dictGet_insert_ne _ _ _ _ hne]
      rcases hh2 : dictGet st.watch_history u2 with _ | l <;> simp [hh2]
    · simp only [hmem, if_false]
      rcases hh2 : dictGet st.watch_history u2 with _ | l <;> simp [hh2]

/-- C5 witness: concrete instance of the amended claim. -/
theorem c5_witness :
    (get_user_history (clear_history engineC5 (some "u2")) "u2" 20).1 = [] ∧
    (get_user_history (clear_history engineC5 (some "u2")) "u3" 20).1 =
      (get_user_history engineC5 "u3" 20).1 :=
  c5_amended engineC5 "u2" "u3" 20 20 (by decide) (by decide)

/-! ## C6: watch-history deduplication -/

theorem dictGet_append_single {d : List (String × α)} {k : String} {x : α}
    (h : dictGet d k = none) : dictGet (d ++ [(k, x)]) k = some x := by
  unfold dictGet at h ⊢
  rw [List.find?_append]
  rcases hf : d.find? (fun p => p.1 = k) with _ | p
  · simp [hf]
  · rw [hf] at h; simp at h

/-- What one `add_to_history` call (with the video present and an explicit
timestamp) does to the caller's own history entry, and that it leaves the
catalog alone. -/
theorem add_to_history_spec (st : RecommendationEngine) (u v t : String)
    (p : ℚ) (n : String) (hv : (dictGet st.videos v).isSome) :
    dictGet (add_to_history st u v (some t) p n).watch_history u =
      some ((((dictGet st.watch_history u).getD []).filter
        (fun it => it.video_id ≠ v)) ++ [⟨v, if t = "" then n else t, p⟩]) ∧
    (add_to_history st u v (some t) p n).videos = st.videos := by
  have hvn : (dictGet st.videos v).isNone = false := by
    rcases hh : dictGet st.videos v with _ | w
    · rw [hh] at hv; simp at hv
    · simp
  by_cases hmem : (dictGet st.watch_history u).isSome
  · unfold add_to_history
    rw [hvn]
    simp only [hmem, if_true, Bool.false_eq_true, if_false]
    exact ⟨dictGet_insert_self _ _ _, trivial⟩
  · have hnone : dictGet st.watch_history u = none :=
      Option.not_isSome_iff_eq_none.mp hmem
    have h2 : dictGet (st.watch_history ++ [(u, ([] : List HistoryItem))]) u =
        some [] := dictGet_append_single hnone
    unfold add_to_history
    rw [hvn]
    simp only [hmem, Bool.false_eq_true, if_false, hnone, Option.isSome_none,
      h2, Option.getD_some, Option.getD_none, List.filter_nil, List.nil_append]
    exact ⟨dictGet_insert_self _ _ _, trivial⟩

/-- C6: adding the same video twice to a user's history leaves exactly one
entry for that `(user, video)` pair, carrying the second call's timestamp and
percentage (timestamps are taken non-empty: a falsy timestamp argument would
be replaced by `datetime.now()`, line 47-48). -/
theorem c6_history_dedup (st : RecommendationEngine) (u v t1 t2 : String)
    (p1 p2 : ℚ) (n1 n2 : String) (ht2 : t2 ≠ "")
    (hv : (dictGet st.videos v).isSome) :
    ((dictGet (add_to_history (add_to_history st u v (some t1) p1 n1)
        u v (some t2) p2 n2).watch_history u).getD []).filter
      (fun it => it.video_id = v) = [⟨v, t2, p2⟩] := by
  obtain ⟨h1get, h1vid⟩ := add_to_history_spec st u v t1 p1 n1 hv
  have hv2 : (dictGet (add_to_history st u v (some t1) p1 n1).videos v).isSome := by
    rw [h1vid]; exact hv
  obtain ⟨h2get, _⟩ :=
    add_to_history_spec (add_to_history st u v (some t1) p1 n1) u v t2 p2 n2 hv2
  rw [h2get]
  simp only [Option.getD_some, h1get, ht2, if_false]
  have hkill : ∀ (L : List HistoryItem),
      (L.filter (fun it => it.video_id ≠ v)).filter (fun it => it.video_id = v) = [] := by
    intro L
    rw [List.filter_filter]
    apply List.filter_eq_nil_iff.mpr
    intro a _
    simp
  rw [List.filter_append, hkill]
  simp [ht2]

/-- C6 witness: concrete instance of the repeat-watch deduplication. -/
theorem c6_witness :
    ((dictGet (add_to_history (add_to_history engineC5 "u9" "A" (some "t1") 50 "n1")
        "u9" "A" (some "t2") 90 "n2").watch_history "u9").getD []).filter
      (fun it => it.video_id = "A") = [⟨"A", "t2", 90⟩] :=
  c6_history_dedup engineC5 "u9" "A" "t1" "t2" 50 90 "n1" "n2" (by decide)
    (by rfl)

/-! ## C7: the Video Store is last-write-wins -/

/-- Looking a key up after folding a batch of inserts: the last batch record
with that id wins; otherwise the original store answers. -/
theorem dictGet_foldl_insert (l : List Video) (d : List (String × Video))
    (k : String) :
    dictGet (l.foldl (fun acc v => dictInsert acc v.id v) d) k =
      (l.reverse.find? (fun x => x.id = k)).or (dictGet d k) := by
  induction l generalizing d with
  | nil => simp
  | cons a t ih =>
    simp only [List.foldl_cons, List.reverse_cons, List.find?_append]
    rw [ih]
    rcases hf : t.reverse.find? (fun x => x.id = k) with _ | x
    · rw [hf]
      simp only [Option.none_or]
      by_cases hk : a.id = k
      · rw [← hk, dictGet_insert_self]
        simp [List.find?_cons]
      · rw [dictGet_insert_ne _ _ _ _ (fun h => hk h.symm)]
        simp [List.find?_cons, hk]
    · rw [hf]
      rfl

/-- The catalog after a non-empty `add_videos` call is the batch folded into
the previous catalog (the vector rebuild only touches `video_ids` and
`tfidf_matrix`). -/
theorem add_videos_videos (st : RecommendationEngine) (l : List Video)
    (fit : Option (List (List ℚ))) (h : l ≠ []) :
    (add_videos st l fit).videos =
      l.foldl (fun acc v => dictInsert acc v.id v) st.videos := by
  unfold add_videos update_content_vectors
  simp only [h, if_false]
  by_cases h2 : (l.foldl (fun acc v => dictInsert acc v.id v) st.videos) = [] <;>
    simp [h2]

/-- C7: the Video Store maps each id to the most recently added record.  If
`v` is the last record with its id in the batch, looking the id up afterwards
returns `v` itself; a later `add_videos` call with a record `w` for the same
id replaces the stored record wholesale. -/
theorem c7_last_write_wins (st : RecommendationEngine) (batch : List Video)
    (v w : Video) (fit fit1 fit2 : Option (List (List ℚ)))
    (hlast : batch.reverse.find? (fun x => x.id = v.id) = some v)
    (hidw : w.id = v.id) :
    dictGet (add_videos st batch fit).videos v.id = some v ∧
    dictGet (add_videos (add_videos st [v] fit1) [w] fit2).videos v.id = some w := by
  constructor
  · have hne : batch ≠ [] := by
      rintro rfl; simp at hlast
    rw [add_videos_videos st batch fit hne, dictGet_foldl_insert, hlast]
    rfl
  · have h1 : ([v] : List Video) ≠ [] := by simp
    have h2 : ([w] : List Video) ≠ [] := by simp
    rw [add_videos_videos _ [w] fit2 h2]
    simp only [List.foldl_cons, List.foldl_nil]
    rw [← hidw, dictGet_insert_self]

/-- C7 witness: re-adding id `"A"` with a changed record overwrites it. -/
theorem c7_witness :
    dictGet (add_videos engineC5
        [mkVideo "A" "c1" "x" [] 7, mkVideo "A" "c9" "y" [] 8] none).videos
      "A" = some (mkVideo "A" "c9" "y" [] 8) ∧
    dictGet (add_videos (add_videos engineC5 [mkVideo "A" "c1" "x" [] 7] none)
        [mkVideo "A" "c9" "y" [] 8] none).videos
      "A" = some (mkVideo "A" "c9" "y" [] 8) :=
  c7_last_write_wins engineC5
    [mkVideo "A" "c1" "x" [] 7, mkVideo "A" "c9" "y" [] 8]
    (mkVideo "A" "c9" "y" [] 8) (mkVideo "A" "c9" "y" [] 8) none none none
    (by rfl) (by rfl)

/-! ## C10: queries do not mutate the stores -/

/-- C10: every query operation returns the engine state unchanged — all
`score` / `watched_percentage` annotations are applied to `.copy()`s of the
stored records, and no query assigns to `self.videos` / `self.watch_history`
(line 195, the only store-touching statement reachable from a query, never
executes: when the matrix is `None` the line above it raises first, and
otherwise its condition is short-circuited to `False`). -/
theorem c10_queries_leave_stores (st : RecommendationEngine) (f : ℚ → ℚ)
    (u v : String) (uo vo cat : Option String) (lim : ℕ) :
    (get_user_history st u lim).2 = st ∧
    (get_content_based_recommendations st v lim cat).2 = st ∧
    (get_collaborative_recommendations st u lim cat).2 = st ∧
    (get_hybrid_recommendations st f uo vo cat lim).2 = st ∧
    (get_trending_videos st f cat lim).2 = st := by
  refine ⟨?_, ?_, ?_, ?_, ?_⟩
  · unfold get_user_history
    rcases dictGet st.watch_history u with _ | h <;> rfl
  · unfold get_content_based_recommendations
    cases hsv : dictGet st.videos v with
    | none => rfl
    | some sv =>
      cases htf : st.tfidf_matrix with
      | none => rfl
      | some G =>
        cases hm : tfidfMethod st G v lim cat <;> simp [hm]
  · unfold get_collaborative_recommendations
    rcases dictGet st.watch_history u with _ | uh
    · rfl
    · by_cases h : uh = [] <;> simp [h]
  · unfold get_hybrid_recommendations
    rcases hc : (if isTruthy vo ∧ (dictGet st.videos (vo.getD "")).isSome then
        (get_content_based_recommendations st (vo.getD "") lim cat).1
      else Except.ok []) with e | content_recs
    · simp [hc]
    · simp only [hc]
      by_cases h1 : content_recs ≠ [] ∧
          (if isTruthy uo ∧ (dictGet st.watch_history (uo.getD "")).isSome then
            (get_collaborative_recommendations st (uo.getD "") lim cat).1
          else []) ≠ []
      · simp [h1]
      · simp only [h1, if_false]
        repeat' split
        all_goals rfl
  · unfold get_trending_videos
    by_cases h : st.videos = [] <;> simp [h]

/-! ## C2: score ranges -/

/-- Data-model invariant of §3: stored watch percentages lie in `[0, 100]`. -/
def PctOK (st : RecommendationEngine) : Prop :=
  ∀ p ∈ st.watch_history, ∀ it ∈ p.2,
    0 ≤ it.watched_percentage ∧ it.watched_percentage ≤ 100

/-- Property of the external cosine-similarity rows (sklearn: cosine
similarity of non-negative TF-IDF vectors lies in `[0, 1]`). -/
def TfidfOK (st : RecommendationEngine) : Prop :=
  ∀ G, st.tfidf_matrix = some G → ∀ row ∈ G, ∀ x ∈ row, 0 ≤ x ∧ x ≤ 1

/-- Property of the external `np.log1p`: non-negative on non-negative input. -/
def Log1pNonneg (f : ℚ → ℚ) : Prop := ∀ x : ℚ, 0 ≤ x → 0 ≤ f x

/-- Every record in the list carries a non-negative score. -/
def scoresNonneg (l : List Video) : Prop := ∀ r ∈ l, 0 ≤ scoreKey r

/-- Every record in the list carries a score at most `1`. -/
def scoresLeOne (l : List Video) : Prop := ∀ r ∈ l, scoreKey r ≤ 1

/-- C2 counterexample: with user `u` having watched `{A}` and three other
users having watched `{A, B}` (each with `B` at 100%), each neighbour has
Jaccard similarity `1/2` and contributes `1/2 · (0.5 + 0.5·100/100) = 1/2`
to candidate `B`; the contributions accumulate additively (line 325) to
`3/2 > 1`, so the returned record's score is not in `[0, 1]`. -/
theorem c2_counterexample :
    ((get_collaborative_recommendations engineC2 "u" 8 none).1.map
      (fun r => r.score)) = [some (3/2)] ∧ ¬ ((3 : ℚ)/2 ≤ 1) := by
  constructor
  · norm_num +decide [get_collaborative_recommendations, similarUsersOf,
      candidateVideosOf, engineC2, mkVideo, dictGet, dictInsert, jaccardQ,
      setInterCard, setUnionCard, passesCategory, isTruthy, scoreKey,
      List.dedup_cons_of_mem, List.dedup_cons_of_not_mem, List.dedup_nil]
  · norm_num

theorem similarUsersOf_pos (st : RecommendationEngine) (user_id : String)
    (user_videos : List String) :
    ∀ su ∈ similarUsersOf st user_id user_videos, 0 < su.similarity := by
  unfold similarUsersOf
  refine foldl_inv (fun acc : List SimilarUser => ∀ su ∈ acc, 0 < su.similarity)
    _ _ [] (by simp) ?_
  intro acc p _ hacc su hsu
  by_cases h1 : p.1 = user_id
  · rw [if_pos h1] at hsu
    exact hacc su hsu
  · rw [if_neg h1] at hsu
    simp only [] at hsu
    by_cases h2 : user_videos ≠ [] ∧ (p.2.map (·.video_id)) ≠ []
    · rw [if_pos h2] at hsu
      by_cases h3 : 0 < jaccardQ user_videos (p.2.map (·.video_id))
      · rw [if_pos h3] at hsu
        rcases List.mem_append.mp hsu with hsu | hsu
        · exact hacc su hsu
        · simp only [List.mem_singleton] at hsu
          exact hsu ▸ h3
      · rw [if_neg h3] at hsu
        exact hacc su hsu
    · rw [if_neg h2] at hsu
      exact hacc su hsu

theorem candidateVideosOf_inv (st : RecommendationEngine) (hpct : PctOK st)
    (user_videos : List String) (cat : Option String)
    (top_users : List SimilarUser)
    (htop : ∀ su ∈ top_users, 0 ≤ su.similarity) :
    ∀ q ∈ candidateVideosOf st user_videos cat top_users,
      0 ≤ q.2 ∧ (dictGet st.videos q.1).isSome := by
  unfold candidateVideosOf
  refine foldl_inv
    (fun cand : List (String × ℚ) =>
      ∀ q ∈ cand, 0 ≤ q.2 ∧ (dictGet st.videos q.1).isSome) _ _ []
    (by simp) ?_
  intro cand su hsu hcand
  refine foldl_inv
    (fun cand : List (String × ℚ) =>
      ∀ q ∈ cand, 0 ≤ q.2 ∧ (dictGet st.videos q.1).isSome) _ _ cand hcand ?_
  intro cand2 item hitem hcand2
  have hpctitem : 0 ≤ item.watched_percentage := by
    rcases hh : dictGet st.watch_history su.user_id with _ | hist
    · rw [hh] at hitem; simp at hitem
    · rw [hh] at hitem
      simp only [Option.getD_some] at hitem
      exact (hpct _ (dictGet_mem hh) item hitem).1
  by_cases h1 : item.video_id ∈ user_videos
  · rw [if_pos h1]; exact hcand2
  · rw [if_neg h1]
    cases hv : dictGet st.videos item.video_id with
    | none => exact hcand2
    | some video =>
      show ∀ q ∈ (if passesCategory cat video = false then cand2 else
          let c := su.similarity * (5/10 + 5/10 * item.watched_percentage / 100)
          match dictGet cand2 item.video_id with
          | some s => dictInsert cand2 item.video_id (s + c)
          | none => dictInsert cand2 item.video_id c),
        0 ≤ q.2 ∧ (dictGet st.videos q.1).isSome
      by_cases h2 : passesCategory cat video = false
      · rw [if_pos h2]; exact hcand2
      · rw [if_neg h2]
        simp only []
        have hc : 0 ≤ su.similarity *
            (5/10 + 5/10 * item.watched_percentage / 100) := by
          apply mul_nonneg (htop su hsu)
          nlinarith [hpctitem]
        cases hg : dictGet cand2 item.video_id with
        | some s =>
          have hs : 0 ≤ s := (hcand2 _ (dictGet_mem hg)).1
          exact dictInsert_forall hcand2 ⟨by simpa using add_nonneg hs hc, by simp [hv]⟩
        | none =>
          exact dictInsert_forall hcand2 ⟨by simpa using hc, by simp [hv]⟩

theorem collab_scores_nonneg (st : RecommendationEngine) (hpct : PctOK st)
    (u : String) (lim : ℕ) (cat : Option String) :
    scoresNonneg (get_collaborative_recommendations st u lim cat).1 := by
  unfold get_collaborative_recommendations
  cases hu : dictGet st.watch_history u with
  | none => intro r hr; simp at hr
  | some uh =>
    by_cases hemp : uh = []
    · intro r hr
      rw [hemp] at hr
      simp at hr
    · intro r hr
      simp only [if_neg hemp] at hr
      have hr2 := mem_of_mem_sortTake hr
      rcases List.mem_filterMap.mp hr2 with ⟨p, hp, hmap⟩
      have htop : ∀ su ∈ (List.insertionSort
          (fun a b : SimilarUser => b.similarity ≤ a.similarity)
          (similarUsersOf st u (uh.map (·.video_id)))).take 5,
          0 ≤ su.similarity := by
        intro su hsu
        exact le_of_lt (forall_mem_sortTake (fun x => 0 < x.similarity) _ 5
          (similarUsersOf_pos st u _) su hsu)
      have hq := candidateVideosOf_inv st hpct (uh.map (·.video_id)) cat _ htop p hp
      rcases Option.map_eq_some'.mp hmap with ⟨v, _, hvr⟩
      rw [← hvr]
      simpa [scoreKey] using hq.1

theorem getD_zero_bounds {row : List ℚ} (h : ∀ x ∈ row, 0 ≤ x ∧ x ≤ 1) (i : ℕ) :
    0 ≤ row.getD i 0 ∧ row.getD i 0 ≤ 1 := by
  rw [List.getD_eq_getElem?_getD]
  cases hg : row[i]? with
  | none => norm_num
  | some q => simpa using h q (List.getElem?_mem hg)

/-- Inversion of one step of the unfiltered TF-IDF collection loop. -/
theorem tfidfCollect_cons_eq_some {st : RecommendationEngine} {row : List ℚ}
    {i : ℕ} {rest : List ℕ} {out : List Video} :
    tfidfCollect st row (i :: rest) = some out ↔
    ∃ vid video tail, st.video_ids[i]? = some vid ∧
      dictGet st.videos vid = some video ∧
      tfidfCollect st row rest = some tail ∧
      out = { video with score := some (row.getD i 0) } :: tail := by
  cases hvid : st.video_ids[i]? with
  | none => rw [tfidfCollect, hvid]; simp [hvid]
  | some vid =>
    cases hvideo : dictGet st.videos vid with
    | none => rw [tfidfCollect, hvid]; simp [hvid, hvideo]
    | some video =>
      cases htail : tfidfCollect st row rest with
      | none => rw [tfidfCollect, hvid]; simp [hvid, hvideo, htail]
      | some tail =>
        rw [tfidfCollect, hvid]
        simp [hvid, hvideo, htail, eq_comm]

/-- Inversion of one step of the category-filtered TF-IDF collection loop. -/
theorem tfidfCollectCat_cons_eq_some {st : RecommendationEngine} {row : List ℚ}
    {c : String} {i : ℕ} {rest : List ℕ} {out : List Video} :
    tfidfCollectCat st row c (i :: rest) = some out ↔
    ∃ vid video tail, st.video_ids[i]? = some vid ∧
      dictGet st.videos vid = some video ∧
      tfidfCollectCat st row c rest = some tail ∧
      out = (if video.categoryId = c then
        { video with score := some (row.getD i 0) } :: tail else tail) := by
  cases hvid : st.video_ids[i]? with
  | none => rw [tfidfCollectCat, hvid]; simp [hvid]
  | some vid =>
    cases hvideo : dictGet st.videos vid with
    | none => rw [tfidfCollectCat, hvid]; simp [hvid, hvideo]
    | some video =>
      cases htail : tfidfCollectCat st row c rest with
      | none => rw [tfidfCollectCat, hvid]; simp [hvid, hvideo, htail]
      | some tail =>
        rw [tfidfCollectCat, hvid]
        simp [hvid, hvideo, htail, eq_comm]
        split <;> simp

/-- Where each record of the unfiltered TF-IDF collection loop comes from. -/
theorem tfidfCollect_mem_shape (st : RecommendationEngine) (row : List ℚ) :
    ∀ {l : List ℕ} {out : List Video}, tfidfCollect st row l = some out →
      ∀ r ∈ out, ∃ i ∈ l, ∃ vid video, st.video_ids[i]? = some vid ∧
        dictGet st.videos vid = some video ∧
        r = { video with score := some (row.getD i 0) } := by
  intro l
  induction l with
  | nil =>
    intro out h r hr
    simp only [tfidfCollect, Option.some_inj] at h
    subst h
    simp at hr
  | cons i rest ih =>
    intro out h r hr
    rcases tfidfCollect_cons_eq_some.mp h with ⟨vid, video, tail, hvid, hvideo, htail, hout⟩
    subst hout
    rcases List.mem_cons.mp hr with rfl | hr
    · exact ⟨i, by simp, vid, video, hvid, hvideo, rfl⟩
    · rcases ih htail r hr with ⟨j, hj, vid2, video2, h1, h2, h3⟩
      exact ⟨j, List.mem_cons_of_mem _ hj, vid2, video2, h1, h2, h3⟩

/-- Where each record of the category-filtered TF-IDF collection loop comes
from (in particular it matches the filter). -/
theorem tfidfCollectCat_mem_shape (st : RecommendationEngine) (row : List ℚ)
    (c : String) :
    ∀ {l : List ℕ} {out : List Video}, tfidfCollectCat st row c l = some out →
      ∀ r ∈ out, ∃ i ∈ l, ∃ vid video, st.video_ids[i]? = some vid ∧
        dictGet st.videos vid = some video ∧ video.categoryId = c ∧
        r = { video with score := some (row.getD i 0) } := by
  intro l
  induction l with
  | nil =>
    intro out h r hr
    simp only [tfidfCollectCat, Option.some_inj] at h
    subst h
    simp at hr
  | cons i rest ih =>
    intro out h r hr
    rcases tfidfCollectCat_cons_eq_some.mp h with
      ⟨vid, video, tail, hvid, hvideo, htail, hout⟩
    subst hout
    by_cases hcat : video.categoryId = c
    · rw [if_pos hcat] at hr
      rcases List.mem_cons.mp hr with rfl | hr
      · exact ⟨i, by simp, vid, video, hvid, hvideo, hcat, rfl⟩
      · rcases ih htail r hr with ⟨j, hj, vid2, video2, h1, h2, h3, h4⟩
        exact ⟨j, List.mem_cons_of_mem _ hj, vid2, video2, h1, h2, h3, h4⟩
    · rw [if_neg hcat] at hr
      rcases ih htail r hr with ⟨j, hj, vid2, video2, h1, h2, h3, h4⟩
      exact ⟨j, List.mem_cons_of_mem _ hj, vid2, video2, h1, h2, h3, h4⟩

/-- Inversion of a successful TF-IDF ranking (`tfidfMethod`). -/
theorem tfidfMethod_eq_some {st : RecommendationEngine} {G : List (List ℚ)}
    {source : String} {limit : ℕ} {category : Option String}
    {recs : List Video} :
    tfidfMethod st G source limit category = some recs ↔
    ∃ si row pool, st.video_ids.findIdx? (fun x => x = source) = some si ∧
      G[si]? = some row ∧
      filterSourceIdx st.video_ids source (argsortTop row limit) = some pool ∧
      ((isTruthy category = true ∧ ∃ filtered,
          tfidfCollectCat st row (category.getD "") pool = some filtered ∧
          recs = filtered.take limit) ∨
       (isTruthy category = false ∧
          tfidfCollect st row (pool.take limit) = some recs)) := by
  cases hsi : st.video_ids.findIdx? (fun x => x = source) with
  | none => rw [tfidfMethod, hsi]; simp [hsi]
  | some si =>
    cases hrow : G[si]? with
    | none => rw [tfidfMethod, hsi]; simp [hsi, hrow]
    | some row =>
      cases hpool : filterSourceIdx st.video_ids source (argsortTop row limit) with
      | none => rw [tfidfMethod, hsi]; simp [hsi, hrow, hpool]
      | some pool =>
        rw [tfidfMethod, hsi]
        by_cases hcat : isTruthy category = true
        · cases hfil : tfidfCollectCat st row (category.getD "") pool with
          | none => simp [hsi, hrow, hpool, hcat, hfil]
          | some filtered => simp [hsi, hrow, hpool, hcat, hfil, eq_comm]
        · have hcat2 : isTruthy category = false := by simpa using hcat
          simp [hsi, hrow, hpool, hcat, hcat2]

/-- Every manual-fallback record carries a score in `(0, 1]`. -/
theorem manualRecs_scores (st : RecommendationEngine) (sv : Video)
    (source : String) (lim : ℕ) (cat : Option String) :
    ∀ r ∈ manualRecs st sv source lim cat,
      ∃ s : ℚ, r.score = some s ∧ 0 < s ∧ s ≤ 1 := by
  unfold manualRecs
  intro r hr
  have hr2 := mem_of_mem_sortTake hr
  rcases List.mem_filterMap.mp hr2 with ⟨p, hp, hf⟩
  by_cases h1 : p.1 = source
  · rw [if_pos h1] at hf; simp at hf
  · rw [if_neg h1] at hf
    by_cases h2 : passesCategory cat p.2 = false
    · rw [if_pos h2] at hf; simp at hf
    · rw [if_neg h2] at hf
      simp only [] at hf
      by_cases h3 : 0 < calculate_similarity sv p.2
      · rw [if_pos h3] at hf
        simp only [Option.some_inj] at hf
        subst hf
        exact ⟨calculate_similarity sv p.2, rfl, h3,
          calculate_similarity_le_one _ _⟩
      · rw [if_neg h3] at hf; simp at hf

/-- Every list `get_content_based_recommendations` successfully returns has
all scores in `[0, 1]` (given that the external cosine-similarity rows do,
§4.2; the manual fallback needs no hypothesis). -/
theorem content_scores_bounds (st : RecommendationEngine) (htf : TfidfOK st)
    (v : String) (lim : ℕ) (cat : Option String) :
    ∀ l, (get_content_based_recommendations st v lim cat).1 = Except.ok l →
      scoresNonneg l ∧ scoresLeOne l := by
  intro l h
  unfold get_content_based_recommendations at h
  cases hsv : dictGet st.videos v with
  | none =>
    rw [hsv] at h
    simp only [Except.ok.injEq] at h
    subst h
    exact ⟨by intro r hr; simp at hr, by intro r hr; simp at hr⟩
  | some sv =>
    rw [hsv] at h
    simp only [] at h
    cases htfm : st.tfidf_matrix with
    | none => rw [htfm] at h; simp at h
    | some G =>
      rw [htfm] at h
      simp only [] at h
      cases hm : tfidfMethod st G v lim cat with
      | none =>
        rw [hm] at h
        simp only [] at h
        simp only [Except.ok.injEq] at h
        subst h
        constructor
        · intro r hr
          rcases manualRecs_scores st sv v lim cat r hr with ⟨q, hq, h0, _⟩
          simp [scoreKey, hq, le_of_lt h0]
        · intro r hr
          rcases manualRecs_scores st sv v lim cat r hr with ⟨q, hq, _, h1⟩
          simp [scoreKey, hq, h1]
      | some recs =>
        rw [hm] at h
        simp only [] at h
        simp only [Except.ok.injEq] at h
        subst h
        rcases tfidfMethod_eq_some.mp hm with
          ⟨si, row, pool, hsi, hrow, hpool, hbranch⟩
        have hrowmem : ∀ x ∈ row, 0 ≤ x ∧ x ≤ 1 :=
          htf G htfm row (List.getElem?_mem hrow)
        rcases hbranch with ⟨hcat, filtered, hfil, hrecs⟩ | ⟨hcat, hcol⟩
        · subst hrecs
          constructor
          · intro r hr
            rcases tfidfCollectCat_mem_shape st row (cat.getD "") hfil r
              (List.mem_of_mem_take hr) with ⟨i, _, _, _, _, _, _, hreq⟩
            rw [hreq]
            simpa [scoreKey] using (getD_zero_bounds hrowmem i).1
          · intro r hr
            rcases tfidfCollectCat_mem_shape st row (cat.getD "") hfil r
              (List.mem_of_mem_take hr) with ⟨i, _, _, _, _, _, _, hreq⟩
            rw [hreq]
            simpa [scoreKey] using (getD_zero_bounds hrowmem i).2
        · constructor
          · intro r hr
            rcases tfidfCollect_mem_shape st row hcol r hr with
              ⟨i, _, _, _, _, _, hreq⟩
            rw [hreq]
            simpa [scoreKey] using (getD_zero_bounds hrowmem i).1
          · intro r hr
            rcases tfidfCollect_mem_shape st row hcol r hr with
              ⟨i, _, _, _, _, _, hreq⟩
            rw [hreq]
            simpa [scoreKey] using (getD_zero_bounds hrowmem i).2

theorem trending_scores_nonneg (st : RecommendationEngine) (f : ℚ → ℚ)
    (hf : Log1pNonneg f) (cat : Option String) (lim : ℕ) :
    scoresNonneg (get_trending_videos st f cat lim).1 := by
  unfold get_trending_videos
  by_cases hemp : st.videos = []
  · rw [if_pos hemp]
    intro r hr; simp at hr
  · rw [if_neg hemp]
    intro r hr
    simp only [] at hr
    have hr2 := List.mem_of_mem_take hr
    rcases List.mem_map.mp hr2 with ⟨v, _, hveq⟩
    rw [← hveq]
    simp only [scoreKey, Option.getD_some]
    apply div_nonneg _ (by norm_num)
    split
    · exact hf _ (by positivity)
    · exact le_refl 0

theorem hybridMerge_nonneg (content_recs collab_recs : List Video)
    (hc : scoresNonneg content_recs) (hco : scoresNonneg collab_recs) :
    ∀ q ∈ hybridMerge content_recs collab_recs,
      0 ≤ q.2.content_score ∧ 0 ≤ q.2.collab_score := by
  unfold hybridMerge
  simp only []
  refine foldl_inv
    (fun d : List (String × HybridEntry) =>
      ∀ q ∈ d, 0 ≤ q.2.content_score ∧ 0 ≤ q.2.collab_score) _ _ _ ?_ ?_
  · refine foldl_inv
      (fun d : List (String × HybridEntry) =>
        ∀ q ∈ d, 0 ≤ q.2.content_score ∧ 0 ≤ q.2.collab_score) _ _ []
      (by simp) ?_
    intro d v hv hd
    exact dictInsert_forall hd ⟨hc v hv, le_refl 0⟩
  · intro d v hv hd
    cases hg : dictGet d v.id with
    | some e =>
      simp only []
      exact dictInsert_forall hd ⟨(hd _ (dictGet_mem hg)).1, hco v hv⟩
    | none =>
      simp only []
      exact dictInsert_forall hd ⟨le_refl 0, hco v hv⟩

/-- C2 (amended): every record returned from a recommendation query carries a
non-negative score (given the §3 invariant that stored watch percentages lie
in `[0,100]`, cosine rows in `[0,1]`, and `log1p ≥ 0` on non-negatives);
records from `recommend_by_content` moreover have score ≤ 1.  Scores are NOT
bounded by 1 in general: collaborative scores accumulate additively across
neighbours, hybrid inherits them, and the trending `log1p(view_count)/20`
score is unclamped. -/
theorem c2_amended (st : RecommendationEngine) (f : ℚ → ℚ) (u v : String)
    (uo vo cat : Option String) (lim : ℕ)
    (hpct : PctOK st) (htf : TfidfOK st) (hlog : Log1pNonneg f) :
    scoresNonneg (get_collaborative_recommendations st u lim cat).1 ∧
    (∀ l, (get_content_based_recommendations st v lim cat).1 = Except.ok l →
      scoresNonneg l ∧ scoresLeOne l) ∧
    scoresNonneg (get_trending_videos st f cat lim).1 ∧
    (∀ l, (get_hybrid_recommendations st f uo vo cat lim).1 = Except.ok l →
      scoresNonneg l) := by
  refine ⟨collab_scores_nonneg st hpct u lim cat,
    content_scores_bounds st htf v lim cat,
    trending_scores_nonneg st f hlog cat lim, ?_⟩
  intro l h
  unfold get_hybrid_recommendations at h
  cases hcr : (if isTruthy vo ∧ (dictGet st.videos (vo.getD "")).isSome then
      (get_content_based_recommendations st (vo.getD "") lim cat).1
    else Except.ok []) with
  | error e => rw [hcr] at h; simp at h
  | ok content_recs =>
    rw [hcr] at h
    simp only [] at h
    have hcnn : scoresNonneg content_recs := by
      by_cases hcall : isTruthy vo ∧ (dictGet st.videos (vo.getD "")).isSome
      · rw [if_pos hcall] at hcr
        exact (content_scores_bounds st htf (vo.getD "") lim cat
          content_recs hcr).1
      · rw [if_neg hcall] at hcr
        simp only [Except.ok.injEq] at hcr
        rw [← hcr]
        intro r hr; simp at hr
    have hcolnn : scoresNonneg
        (if isTruthy uo ∧ (dictGet st.watch_history (uo.getD "")).isSome then
          (get_collaborative_recommendations st (uo.getD "") lim cat).1
        else []) := by
      by_cases hcall : isTruthy uo ∧ (dictGet st.watch_history (uo.getD "")).isSome
      · rw [if_pos hcall]
        exact collab_scores_nonneg st hpct (uo.getD "") lim cat
      · rw [if_neg hcall]
        intro r hr; simp at hr
    by_cases hboth : content_recs ≠ [] ∧
        (if isTruthy uo ∧ (dictGet st.watch_history (uo.getD "")).isSome then
          (get_collaborative_recommendations st (uo.getD "") lim cat).1
        else []) ≠ []
    · rw [if_pos hboth] at h
      simp only [Except.ok.injEq] at h
      rw [← h]
      intro r hr
      rcases List.mem_map.mp (mem_of_mem_sortTake hr) with ⟨q, hq, hreq⟩
      rw [← hreq]
      have hb := hybridMerge_nonneg content_recs _ hcnn hcolnn q hq
      simp only [scoreKey, Option.getD_some]
      nlinarith [hb.1, hb.2]
    · rw [if_neg hboth] at h
      by_cases hcne : content_recs ≠ []
      · rw [if_pos hcne] at h
        simp only [Except.ok.injEq] at h
        rw [← h]
        exact hcnn
      · rw [if_neg hcne] at h
        by_cases hcol : (if isTruthy uo ∧
            (dictGet st.watch_history (uo.getD "")).isSome then
              (get_collaborative_recommendations st (uo.getD "") lim cat).1
            else []) ≠ []
        · rw [if_pos hcol] at h
          simp only [Except.ok.injEq] at h
          rw [← h]
          exact hcolnn
        · rw [if_neg hcol] at h
          simp only [Except.ok.injEq] at h
          rw [← h]
          exact trending_scores_nonneg st f hlog cat lim

/-- C2 witness: concrete instance of the amended claim (collaborative and
trending queries on the counterexample state, with identity standing in for
`log1p`, which is non-negative on non-negatives). -/
theorem c2_witness :
    scoresNonneg (get_collaborative_recommendations engineC2 "u" 8 none).1 ∧
    scoresNonneg (get_trending_videos engineC2 (fun x => x) none 8).1 :=
  ⟨(c2_amended engineC2 (fun x => x) "u" "A" none none none 8
      (by norm_num [PctOK, engineC2]) (by simp [TfidfOK, engineC2])
      (fun x hx => hx)).1,
   (c2_amended engineC2 (fun x => x) "u" "A" none none none 8
      (by norm_num [PctOK, engineC2]) (by simp [TfidfOK, engineC2])
      (fun x hx => hx)).2.2.1⟩

/-! ## C8: result size bound and source exclusion -/

/-- Well-formedness invariant of the Video Store: every entry's record
carries the key as its `id` (maintained by `add_videos`, which keys each
record by `video["id"]`). -/
def IdKeyed (st : RecommendationEngine) : Prop :=
  ∀ p ∈ st.videos, (p.2).id = p.1

theorem filterSourceIdx_no_source (ids : List String) (source : String) :
    ∀ {l out : List ℕ}, filterSourceIdx ids source l = some out →
      ∀ i ∈ out, ∀ vid, ids[i]? = some vid → vid ≠ source := by
  intro l
  induction l with
  | nil =>
    intro out h i hi
    simp only [filterSourceIdx, Option.some_inj] at h
    subst h
    simp at hi
  | cons j rest ih =>
    intro out h i hi vid hvid
    rw [filterSourceIdx] at h
    cases hj : ids[j]? with
    | none => rw [hj] at h; simp at h
    | some vidj =>
      rw [hj] at h
      simp only [] at h
      cases hrest : filterSourceIdx ids source rest with
      | none => rw [hrest] at h; simp at h
      | some tail =>
        rw [hrest] at h
        simp only [] at h
        by_cases hsrc : vidj = source
        · rw [if_pos hsrc] at h
          simp only [Option.some_inj] at h
          subst h
          exact ih hrest i hi vid hvid
        · rw [if_neg hsrc] at h
          simp only [Option.some_inj] at h
          subst h
          rcases List.mem_cons.mp hi with rfl | hi
          · rw [hj] at hvid
            simp only [Option.some_inj] at hvid
            exact hvid ▸ hsrc
          · exact ih hrest i hi vid hvid

theorem filterSourceIdx_sublist (ids : List String) (source : String) :
    ∀ {l out : List ℕ}, filterSourceIdx ids source l = some out →
      out.Sublist l := by
  intro l
  induction l with
  | nil =>
    intro out h
    simp only [filterSourceIdx, Option.some_inj] at h
    subst h
    exact List.Sublist.refl _
  | cons j rest ih =>
    intro out h
    rw [filterSourceIdx] at h
    cases hj : ids[j]? with
    | none => rw [hj] at h; simp at h
    | some vidj =>
      rw [hj] at h
      simp only [] at h
      cases hrest : filterSourceIdx ids source rest with
      | none => rw [hrest] at h; simp at h
      | some tail =>
        rw [hrest] at h
        simp only [] at h
        by_cases hsrc : vidj = source
        · rw [if_pos hsrc] at h
          simp only [Option.some_inj] at h
          subst h
          exact List.Sublist.cons _ (ih hrest)
        · rw [if_neg hsrc] at h
          simp only [Option.some_inj] at h
          subst h
          exact List.Sublist.cons₂ _ (ih hrest)

theorem tfidfCollect_length (st : RecommendationEngine) (row : List ℚ) :
    ∀ {l : List ℕ} {out : List Video}, tfidfCollect st row l = some out →
      out.length = l.length := by
  intro l
  induction l with
  | nil =>
    intro out h
    simp only [tfidfCollect, Option.some_inj] at h
    subst h
    rfl
  | cons i rest ih =>
    intro out h
    rcases tfidfCollect_cons_eq_some.mp h with ⟨_, _, tail, _, _, htail, hout⟩
    subst hout
    simp [ih htail]

theorem tfidfCollectCat_length (st : RecommendationEngine) (row : List ℚ)
    (c : String) :
    ∀ {l : List ℕ} {out : List Video}, tfidfCollectCat st row c l = some out →
      out.length ≤ l.length := by
  intro l
  induction l with
  | nil =>
    intro out h
    simp only [tfidfCollectCat, Option.some_inj] at h
    subst h
    simp
  | cons i rest ih =>
    intro out h
    rcases tfidfCollectCat_cons_eq_some.mp h with
      ⟨_, video, tail, _, _, htail, hout⟩
    subst hout
    by_cases hcat : video.categoryId = c
    · rw [if_pos hcat]
      simpa using ih htail
    · rw [if_neg hcat]
      exact Nat.le_succ_of_le (ih htail)

theorem manualRecs_ids (st : RecommendationEngine) (hid : IdKeyed st)
    (sv : Video) (source : String) (lim : ℕ) (cat : Option String) :
    ∀ r ∈ manualRecs st sv source lim cat, r.id ≠ source := by
  unfold manualRecs
  intro r hr
  rcases List.mem_filterMap.mp (mem_of_mem_sortTake hr) with ⟨p, hp, hf⟩
  by_cases h1 : p.1 = source
  · rw [if_pos h1] at hf; simp at hf
  · rw [if_neg h1] at hf
    by_cases h2 : passesCategory cat p.2 = false
    · rw [if_pos h2] at hf; simp at hf
    · rw [if_neg h2] at hf
      simp only [] at hf
      by_cases h3 : 0 < calculate_similarity sv p.2
      · rw [if_pos h3] at hf
        simp only [Option.some_inj] at hf
        subst hf
        show p.2.id ≠ source
        rw [hid p hp]
        exact h1
      · rw [if_neg h3] at hf; simp at hf

/-- C8: `recommend_by_content(source, limit=N)` — whenever it returns a list,
the list has at most `N` records and none of them carries the source's id;
when the source id is not in the Video Store the result is the empty list
(returned before the index is even consulted). -/
theorem c8_content_limit_no_source (st : RecommendationEngine)
    (hid : IdKeyed st) (source : String) (lim : ℕ) (cat : Option String) :
    (dictGet st.videos source = none →
      (get_content_based_recommendations st source lim cat).1 = Except.ok []) ∧
    (∀ l, (get_content_based_recommendations st source lim cat).1 = Except.ok l →
      l.length ≤ lim ∧ source ∉ l.map (·.id)) := by
  constructor
  · intro hnone
    unfold get_content_based_recommendations
    rw [hnone]
  · intro l h
    suffices hsuff : l.length ≤ lim ∧ ∀ r ∈ l, r.id ≠ source by
      refine ⟨hsuff.1, ?_⟩
      intro hmem
      rcases List.mem_map.mp hmem with ⟨r, hr, hreq⟩
      exact hsuff.2 r hr hreq
    unfold get_content_based_recommendations at h
    cases hsv : dictGet st.videos source with
    | none =>
      rw [hsv] at h
      simp only [Except.ok.injEq] at h
      rw [← h]
      exact ⟨by simp, by intro r hr; simp at hr⟩
    | some sv =>
      rw [hsv] at h
      simp only [] at h
      cases htfm : st.tfidf_matrix with
      | none => rw [htfm] at h; simp at h
      | some G =>
        rw [htfm] at h
        simp only [] at h
        cases hm : tfidfMethod st G source lim cat with
        | none =>
          rw [hm] at h
          simp only [] at h
          simp only [Except.ok.injEq] at h
          rw [← h]
          constructor
          · exact List.length_take_le _ _
          · exact manualRecs_ids st hid sv source lim cat
        | some recs =>
          rw [hm] at h
          simp only [] at h
          simp only [Except.ok.injEq] at h
          rw [← h]
          rcases tfidfMethod_eq_some.mp hm with
            ⟨si, row, pool, hsi, hrow, hpool, hbranch⟩
          rcases hbranch with ⟨hcat, filtered, hfil, hrecs⟩ | ⟨hcat, hcol⟩
          · subst hrecs
            constructor
            · exact List.length_take_le _ _
            · intro r hr
              rcases tfidfCollectCat_mem_shape st row (cat.getD "") hfil r
                (List.mem_of_mem_take hr) with
                ⟨i, hipool, vid, video, hvid, hvideo, _, hreq⟩
              rw [hreq]
              show video.id ≠ source
              rw [hid (vid, video) (dictGet_mem hvideo)]
              exact filterSourceIdx_no_source _ _ hpool i hipool vid hvid
          · constructor
            · calc recs.length = (pool.take lim).length :=
                    tfidfCollect_length st row hcol
                _ ≤ lim := List.length_take_le _ _
            · intro r hr
              rcases tfidfCollect_mem_shape st row hcol r hr with
                ⟨i, hipool, vid, video, hvid, hvideo, hreq⟩
              rw [hreq]
              show video.id ≠ source
              rw [hid (vid, video) (dictGet_mem hvideo)]
              exact filterSourceIdx_no_source _ _ hpool i
                (List.mem_of_mem_take hipool) vid hvid

/-- C8 witness: concrete instance — source `"s"` absent from the results and
the size bound holds. -/
theorem c8_witness :
    ([{ mkVideo "a" "c2" "x" [] 2 with score := some (9/10) }] : List Video).length ≤ 2 ∧
    "s" ∉ ([{ mkVideo "a" "c2" "x" [] 2 with score := some (9/10) }] : List Video).map
      (fun r => r.id) :=
  (c8_content_limit_no_source engineC3 (by unfold IdKeyed; decide) "s" 2 none).2
    [{ mkVideo "a" "c2" "x" [] 2 with score := some (9/10) }]
    (by norm_num +decide [get_content_based_recommendations, tfidfMethod,
      tfidfCollect, tfidfCollectCat, filterSourceIdx, argsortTop, argsortAsc,
      engineC3, mkVideo, dictGet, isTruthy, List.insertionSort,
      List.orderedInsert])

/-! ## C3: category filter versus truncation -/

/-- C3 counterexample: in `engineC3`, video `"b"` is the *only* catalog video
(other than the source `"s"`) in category `"m"`, with a positive TF-IDF
similarity to the source — so it ranks among the top 1 matching candidates —
yet `recommend_by_content("s", limit=1, category="m")` returns the empty
list: the TF-IDF branch first truncates to the top-1 pool (which holds only
the source itself; line 213), drops the source, and only then applies the
category filter. -/
theorem c3_counterexample :
    (get_content_based_recommendations engineC3 "s" 1 (some "m")).1 =
      Except.ok [] ∧
    engineC3.videos.filter (fun p => p.2.categoryId = "m" ∧ p.1 ≠ "s") =
      [("b", mkVideo "b" "c3" "m" [] 3)] ∧
    engineC3.tfidf_matrix = some [[1, 9/10, 1/2], [9/10, 1, 2/5], [1/2, 2/5, 1]] ∧
    (0 : ℚ) < 1/2 := by
  refine ⟨?_, by decide, rfl, by norm_num⟩
  norm_num +decide [get_content_based_recommendations, tfidfMethod,
    tfidfCollect, tfidfCollectCat, filterSourceIdx, argsortTop, argsortAsc,
    engineC3, mkVideo, dictGet, isTruthy, List.insertionSort,
    List.orderedInsert]

/-- Well-formedness invariant of the Video Store: keys are distinct
(a Python dict cannot hold a key twice). -/
def KeysNodup (st : RecommendationEngine) : Prop :=
  (st.videos.map (·.1)).Nodup

/-- In a descending-sorted duplicate-free list, an element dominated by
fewer than `limit` other elements lies within the first `limit` entries. -/
theorem mem_take_of_sorted_count {α : Type} [DecidableEq α] (key : α → ℚ) :
    ∀ (L : List α) (limit : ℕ) (x : α),
      L.Sorted (fun a b => key b ≤ key a) → L.Nodup → x ∈ L →
      L.countP (fun y => decide (y ≠ x ∧ key x ≤ key y)) < limit →
      x ∈ L.take limit := by
  intro L
  induction L with
  | nil => intro limit x _ _ hx _; simp at hx
  | cons a t ih =>
    intro limit x hs hnd hx hcount
    cases limit with
    | zero => exact absurd hcount (by simp)
    | succ n =>
      rcases List.mem_cons.mp hx with rfl | hxt
      · simp [List.take_succ_cons]
      · have hax : a ≠ x := by
          rintro rfl
          exact (List.nodup_cons.mp hnd).1 hxt
        have hkey : key x ≤ key a := List.rel_of_sorted_cons hs x hxt
        have hahead : decide (a ≠ x ∧ key x ≤ key a) = true := by
          simp [hax, hkey]
        have hcount2 : t.countP (fun y => decide (y ≠ x ∧ key x ≤ key y)) < n := by
          rw [List.countP_cons, hahead] at hcount
          simp only [if_true] at hcount
          omega
        have hxtake := ih n x (List.sorted_cons.mp hs).2
          (List.nodup_cons.mp hnd).2 hxt hcount2
        rw [List.take_succ_cons]
        exact List.mem_cons_of_mem _ hxtake

/-- A catalog `filterMap` that keeps record ids produces an id list that is a
sublist of the key list. -/
theorem filterMap_ids_sublist (f : String × Video → Option Video) :
    ∀ (l : List (String × Video)), (∀ p ∈ l, (p.2).id = p.1) →
      (∀ p v, p ∈ l → f p = some v → v.id = (p.2).id) →
      ((l.filterMap f).map (·.id)).Sublist (l.map (·.1)) := by
  intro l
  induction l with
  | nil => intro _ _; simp
  | cons p rest ih =>
    intro hid hf
    rw [List.filterMap_cons]
    cases hfp : f p with
    | none =>
      exact List.Sublist.cons _ (ih (fun q hq => hid q (List.mem_cons_of_mem _ hq))
        (fun q v hq => hf q v (List.mem_cons_of_mem _ hq)))
    | some v =>
      rw [List.map_cons, List.map_cons]
      have : v.id = p.1 := by
        rw [hf p v (List.mem_cons_self _ _) hfp]
        exact hid p (List.mem_cons_self _ _)
      rw [this]
      exact List.Sublist.cons₂ _ (ih (fun q hq => hid q (List.mem_cons_of_mem _ hq))
        (fun q v hq => hf q v (List.mem_cons_of_mem _ hq)))

/-- C3 (amended): the filter-before-truncation guarantee holds only for the
manual fallback scorer: every catalog video matching the filter with fewer
than `limit` matching candidates ranked at or above it appears in the manual
result.  The TF-IDF branch instead truncates the candidate pool to the
top-`limit` indices by similarity first (dropping the source from that pool)
and applies the category filter afterwards: every record it returns matches
the filter *and* draws its id from that already-truncated pool, so a
matching video outside the overall top-`limit` is omitted. -/
theorem c3_amended (st : RecommendationEngine) (hid : IdKeyed st)
    (hk : KeysNodup st) (source : String) (limit : ℕ) (c : String)
    (hc : c ≠ "") :
    (∀ sv k v, (k, v) ∈ st.videos → k ≠ source → v.categoryId = c →
      0 < calculate_similarity sv v →
      st.videos.countP (fun p => decide (p.1 ≠ source ∧ p.1 ≠ k ∧
        passesCategory (some c) p.2 = true ∧ 0 < calculate_similarity sv p.2 ∧
        calculate_similarity sv v ≤ calculate_similarity sv p.2)) < limit →
      { v with score := some (calculate_similarity sv v) } ∈
        manualRecs st sv source limit (some c)) ∧
    (∀ G recs pool, tfidfPool st G source limit = some pool →
      tfidfMethod st G source limit (some c) = some recs →
      pool.length ≤ limit ∧
      ∀ r ∈ recs, r.categoryId = c ∧
        r.id ∈ pool.filterMap (fun i => st.video_ids[i]?)) := by
  constructor
  · intro sv k v hkv hks hvc hsim hcount
    have hpass : passesCategory (some c) v = true := by
      simp [passesCategory, isTruthy, hc, hvc]
    unfold manualRecs
    haveI htot : IsTotal Video (fun a b => scoreKey b ≤ scoreKey a) :=
      ⟨fun a b => le_total (scoreKey b) (scoreKey a)⟩
    haveI htrans : IsTrans Video (fun a b => scoreKey b ≤ scoreKey a) :=
      ⟨fun a b d hab hbd => le_trans hbd hab⟩
    apply mem_take_of_sorted_count scoreKey
    · exact List.sorted_insertionSort _ _
    · -- Nodup: ids are a sublist of the (distinct) catalog keys
      refine ((List.perm_insertionSort _ _).nodup_iff).mpr ?_
      refine List.Nodup.of_map (fun r => r.id) (List.Nodup.sublist ?_ hk)
      apply filterMap_ids_sublist _ st.videos hid
      intro p w hp hfw
      by_cases h1 : p.1 = source
      · rw [if_pos h1] at hfw; simp at hfw
      · rw [if_neg h1] at hfw
        by_cases h2 : passesCategory (some c) p.2 = false
        · rw [if_pos h2] at hfw; simp at hfw
        · rw [if_neg h2] at hfw
          simp only [] at hfw
          by_cases h3 : 0 < calculate_similarity sv p.2
          · rw [if_pos h3] at hfw
            simp only [Option.some_inj] at hfw
            rw [← hfw]
          · rw [if_neg h3] at hfw; simp at hfw
    · -- membership in the pre-truncation candidate list
      refine (List.mem_insertionSort _).mpr ?_
      refine List.mem_filterMap.mpr ⟨(k, v), hkv, ?_⟩
      rw [if_neg hks]
      simp only []
      rw [if_neg (by simp [hpass]), if_pos hsim]
    · -- the domination count is bounded by the catalog count
      rw [(List.perm_insertionSort _ _).countP_eq]
      apply Nat.lt_of_le_of_lt _ hcount
      rw [List.countP_filterMap]
      apply List.countP_mono_left
      intro p hp hpred
      by_cases h1 : p.1 = source
      · rw [if_pos h1] at hpred; simp at hpred
      · rw [if_neg h1] at hpred
        simp only [] at hpred
        by_cases h2 : passesCategory (some c) p.2 = false
        · rw [if_pos h2] at hpred; simp at hpred
        · rw [if_neg h2] at hpred
          by_cases h3 : 0 < calculate_similarity sv p.2
          · rw [if_pos h3] at hpred
            simp only [Option.map_some', Option.getD_some, decide_eq_true_eq] at hpred
            obtain ⟨hne, hkeyle⟩ := hpred
            have hp1k : p.1 ≠ k := by
              rintro rfl
              have : p = (p.1, v) := List.inj_on_of_nodup_map hk hp hkv rfl
              apply hne
              rw [this]
            have hkey2 : calculate_similarity sv v ≤ calculate_similarity sv p.2 := by
              simpa [scoreKey] using hkeyle
            simp [h1, hp1k, h2, h3, hkey2]
          · rw [if_neg h3] at hpred; simp at hpred
  · intro G recs pool hpoolEq hmEq
    rcases tfidfMethod_eq_some.mp hmEq with ⟨si, row, pool2, hsi, hrow, hpool2, hbranch⟩
    have hpools : pool2 = pool := by
      rw [tfidfPool, hsi] at hpoolEq
      simp only [] at hpoolEq
      rw [hrow] at hpoolEq
      simp only [] at hpoolEq
      rw [hpool2] at hpoolEq
      simpa using hpoolEq
    subst hpools
    constructor
    · have hsub := filterSourceIdx_sublist _ _ hpool2
      calc pool2.length ≤ (argsortTop row limit).length := hsub.length_le
        _ ≤ limit := by
            unfold argsortTop
            exact List.length_take_le _ _
    · rcases hbranch with ⟨_, filtered, hfil, hrecs⟩ | ⟨hcat2, _⟩
      · subst hrecs
        intro r hr
        rcases tfidfCollectCat_mem_shape st row ((some c).getD "") hfil r
          (List.mem_of_mem_take hr) with
          ⟨i, hipool, vid, video, hvid, hvideo, hcatv, hreq⟩
        constructor
        · rw [hreq]
          show video.categoryId = c
          simpa using hcatv
        · rw [hreq]
          show video.id ∈ _
          rw [hid (vid, video) (dictGet_mem hvideo)]
          exact List.mem_filterMap.mpr ⟨i, hipool, hvid⟩
      · exact absurd hcat2 (by simp [isTruthy, hc])

/-- C3 witness: concrete instance of the manual half of the amended claim —
in `engineC2`, video `B` (same channel and category as source `A`) is the
only matching candidate and indeed appears in the manual result for
`limit = 1`, filter `"x"`. -/
theorem c3_witness :
    { mkVideo "B" "ch" "x" [] 20 with
        score := some (calculate_similarity (mkVideo "A" "ch" "x" [] 10)
          (mkVideo "B" "ch" "x" [] 20)) } ∈
      manualRecs engineC2 (mkVideo "A" "ch" "x" [] 10) "A" 1 (some "x") :=
  (c3_amended engineC2 (by unfold IdKeyed; decide) (by unfold KeysNodup; decide)
    "A" 1 "x" (by decide)).1
    (mkVideo "A" "ch" "x" [] 10) "B" (mkVideo "B" "ch" "x" [] 20)
    (by decide) (by decide) (by decide)
    (by norm_num [calculate_similarity, mkVideo])
    (by norm_num +decide [engineC2, mkVideo, passesCategory, isTruthy,
      calculate_similarity, jaccardQ, setInterCard, setUnionCard,
      List.countP_cons, List.countP_nil])

/-! ## C9: hybrid results carry no duplicate ids -/

/-- Every record in the list carries a distinct id. -/
def nodupIds (l : List Video) : Prop := (l.map (·.id)).Nodup

theorem filterMap_getElem_nodup (ids : List String) (hids : ids.Nodup) :
    ∀ (l : List ℕ), l.Nodup →
      (l.filterMap (fun i => ids[i]?)).Nodup := by
  intro l
  induction l with
  | nil => intro _; simp
  | cons i rest ih =>
    intro hnd
    rw [List.filterMap_cons]
    cases hg : ids[i]? with
    | none => exact ih (List.nodup_cons.mp hnd).2
    | some v =>
      rw [List.nodup_cons]
      refine ⟨?_, ih (List.nodup_cons.mp hnd).2⟩
      intro hv
      rcases List.mem_filterMap.mp hv with ⟨j, hj, hgj⟩
      have hij : i = j := by
        apply List.getElem?_inj _ hids
        · rw [hg, hgj]
        · exact (List.getElem?_eq_some_iff.mp hg).1
      exact (List.nodup_cons.mp hnd).1 (hij ▸ hj)

theorem tfidfCollect_ids_sublist (st : RecommendationEngine)
    (hid : IdKeyed st) (row : List ℚ) :
    ∀ {l : List ℕ} {out : List Video}, tfidfCollect st row l = some out →
      (out.map (·.id)).Sublist (l.filterMap (fun i => st.video_ids[i]?)) := by
  intro l
  induction l with
  | nil =>
    intro out h
    simp only [tfidfCollect, Option.some_inj] at h
    subst h
    simp
  | cons i rest ih =>
    intro out h
    rcases tfidfCollect_cons_eq_some.mp h with
      ⟨vid, video, tail, hvid, hvideo, htail, hout⟩
    subst hout
    rw [List.filterMap_cons, hvid, List.map_cons]
    have : video.id = vid := hid (vid, video) (dictGet_mem hvideo)
    rw [show ({ video with score := some (row.getD i 0) } : Video).id = vid from this]
    exact List.Sublist.cons₂ _ (ih htail)

theorem tfidfCollectCat_ids_sublist (st : RecommendationEngine)
    (hid : IdKeyed st) (row : List ℚ) (c : String) :
    ∀ {l : List ℕ} {out : List Video}, tfidfCollectCat st row c l = some out →
      (out.map (·.id)).Sublist (l.filterMap (fun i => st.video_ids[i]?)) := by
  intro l
  induction l with
  | nil =>
    intro out h
    simp only [tfidfCollectCat, Option.some_inj] at h
    subst h
    simp
  | cons i rest ih =>
    intro out h
    rcases tfidfCollectCat_cons_eq_some.mp h with
      ⟨vid, video, tail, hvid, hvideo, htail, hout⟩
    subst hout
    rw [List.filterMap_cons, hvid]
    by_cases hcat : video.categoryId = c
    · rw [if_pos hcat, List.map_cons]
      have : video.id = vid := hid (vid, video) (dictGet_mem hvideo)
      rw [show ({ video with score := some (row.getD i 0) } : Video).id = vid from this]
      exact List.Sublist.cons₂ _ (ih htail)
    · rw [if_neg hcat]
      exact List.Sublist.cons _ (ih htail)

/-- The TF-IDF candidate pool is duplicate-free. -/
theorem tfidfPool_nodup (st : RecommendationEngine) (row : List ℚ)
    (source : String) (limit : ℕ) {pool : List ℕ}
    (h : filterSourceIdx st.video_ids source (argsortTop row limit) = some pool) :
    pool.Nodup := by
  have h1 : (argsortAsc row).Nodup :=
    (List.perm_insertionSort _ _).nodup_iff.mpr (List.nodup_range _)
  have h2 : (argsortTop row limit).Nodup := by
    unfold argsortTop
    exact List.Nodup.sublist (List.take_sublist _ _)
      (List.nodup_reverse.mpr h1)
  exact List.Nodup.sublist (filterSourceIdx_sublist _ _ h) h2

/-- A take-of-a-sublist keeps ids duplicate-free. -/
theorem nodupIds_take {l : List Video} (h : nodupIds l) (n : ℕ) :
    nodupIds (l.take n) :=
  List.Nodup.sublist (List.Sublist.map _ (List.take_sublist _ _)) h

theorem manualRecs_nodupIds (st : RecommendationEngine) (hid : IdKeyed st)
    (hk : KeysNodup st) (sv : Video) (source : String) (lim : ℕ)
    (cat : Option String) : nodupIds (manualRecs st sv source lim cat) := by
  unfold manualRecs nodupIds
  apply nodup_map_sortTake
  refine List.Nodup.sublist ?_ hk
  apply filterMap_ids_sublist _ st.videos hid
  intro p w hp hfw
  by_cases h1 : p.1 = source
  · rw [if_pos h1] at hfw; simp at hfw
  · rw [if_neg h1] at hfw
    by_cases h2 : passesCategory cat p.2 = false
    · rw [if_pos h2] at hfw; simp at hfw
    · rw [if_neg h2] at hfw
      simp only [] at hfw
      by_cases h3 : 0 < calculate_similarity sv p.2
      · rw [if_pos h3] at hfw
        simp only [Option.some_inj] at hfw
        rw [← hfw]
      · rw [if_neg h3] at hfw; simp at hfw

theorem content_nodupIds (st : RecommendationEngine) (hid : IdKeyed st)
    (hk : KeysNodup st) (hvn : st.video_ids.Nodup) (v : String) (lim : ℕ)
    (cat : Option String) :
    ∀ l, (get_content_based_recommendations st v lim cat).1 = Except.ok l →
      nodupIds l := by
  intro l h
  unfold get_content_based_recommendations at h
  cases hsv : dictGet st.videos v with
  | none =>
    rw [hsv] at h
    simp only [Except.ok.injEq] at h
    rw [← h]; simp [nodupIds]
  | some sv =>
    rw [hsv] at h
    simp only [] at h
    cases htfm : st.tfidf_matrix with
    | none => rw [htfm] at h; simp at h
    | some G =>
      rw [htfm] at h
      simp only [] at h
      cases hm : tfidfMethod st G v lim cat with
      | none =>
        rw [hm] at h
        simp only [] at h
        simp only [Except.ok.injEq] at h
        rw [← h]
        exact manualRecs_nodupIds st hid hk sv v lim cat
      | some recs =>
        rw [hm] at h
        simp only [] at h
        simp only [Except.ok.injEq] at h
        rw [← h]
        rcases tfidfMethod_eq_some.mp hm with
          ⟨si, row, pool, hsi, hrow, hpool, hbranch⟩
        have hpoolnd : pool.Nodup := tfidfPool_nodup st row v lim hpool
        rcases hbranch with ⟨_, filtered, hfil, hrecs⟩ | ⟨_, hcol⟩
        · subst hrecs
          apply nodupIds_take
          exact List.Nodup.sublist (tfidfCollectCat_ids_sublist st hid row _ hfil)
            (filterMap_getElem_nodup _ hvn _ hpoolnd)
        · exact List.Nodup.sublist (tfidfCollect_ids_sublist st hid row hcol)
            (filterMap_getElem_nodup _ hvn _
              (List.Nodup.sublist (List.take_sublist _ _) hpoolnd))

theorem candidateVideosOf_keys_nodup (st : RecommendationEngine)
    (user_videos : List String) (cat : Option String)
    (top_users : List SimilarUser) :
    ((candidateVideosOf st user_videos cat top_users).map (·.1)).Nodup := by
  unfold candidateVideosOf
  refine foldl_inv (fun cand : List (String × ℚ) => (cand.map (·.1)).Nodup)
    _ _ [] (by simp) ?_
  intro cand su hsu hcand
  refine foldl_inv (fun cand : List (String × ℚ) => (cand.map (·.1)).Nodup)
    _ _ cand hcand ?_
  intro cand2 item hitem hcand2
  by_cases h1 : item.video_id ∈ user_videos
  · rw [if_pos h1]; exact hcand2
  · rw [if_neg h1]
    cases hv : dictGet st.videos item.video_id with
    | none => exact hcand2
    | some video =>
      show ((if passesCategory cat video = false then cand2
        else
          let c := su.similarity * (5/10 + 5/10 * item.watched_percentage / 100)
          match dictGet cand2 item.video_id with
          | some s => dictInsert cand2 item.video_id (s + c)
          | none => dictInsert cand2 item.video_id c).map (·.1)).Nodup
      by_cases h2 : passesCategory cat video = false
      · rw [if_pos h2]; exact hcand2
      · rw [if_neg h2]
        simp only []
        cases hg : dictGet cand2 item.video_id with
        | some s => exact dictInsert_keys_nodup hcand2
        | none => exact dictInsert_keys_nodup hcand2

theorem candFilterMap_ids_sublist (st : RecommendationEngine)
    (hid : IdKeyed st) :
    ∀ (l : List (String × ℚ)),
      ((l.filterMap (fun p => (dictGet st.videos p.1).map
        (fun w => { w with score := some p.2 }))).map (·.id)).Sublist
        (l.map (·.1)) := by
  intro l
  induction l with
  | nil => simp
  | cons p rest ih =>
    rw [List.filterMap_cons]
    cases hg : dictGet st.videos p.1 with
    | none =>
      simp only [Option.map_none']
      exact List.Sublist.cons _ ih
    | some w =>
      simp only [Option.map_some']
      rw [List.map_cons, List.map_cons]
      have hwid : ({ w with score := some p.2 } : Video).id = p.1 :=
        hid (p.1, w) (dictGet_mem hg)
      rw [hwid]
      exact List.Sublist.cons₂ _ ih

theorem collab_nodupIds (st : RecommendationEngine) (hid : IdKeyed st)
    (u : String) (lim : ℕ) (cat : Option String) :
    nodupIds (get_collaborative_recommendations st u lim cat).1 := by
  unfold get_collaborative_recommendations
  cases hu : dictGet st.watch_history u with
  | none => simp [nodupIds]
  | some uh =>
    by_cases hemp : uh = []
    · simp [hemp, nodupIds]
    · simp only [if_neg hemp]
      unfold nodupIds
      apply nodup_map_sortTake
      exact List.Nodup.sublist (candFilterMap_ids_sublist st hid _)
        (candidateVideosOf_keys_nodup st _ cat _)

theorem trending_nodupIds (st : RecommendationEngine) (hid : IdKeyed st)
    (hk : KeysNodup st) (f : ℚ → ℚ) (cat : Option String) (lim : ℕ) :
    nodupIds (get_trending_videos st f cat lim).1 := by
  unfold get_trending_videos
  by_cases hemp : st.videos = []
  · rw [if_pos hemp]; simp [nodupIds]
  · rw [if_neg hemp]
    simp only []
    unfold nodupIds
    have htr : ((st.videos.filterMap (fun p =>
        if passesCategory cat p.2 then some p.2 else none)).map (·.id)).Sublist
        (st.videos.map (·.1)) := by
      apply filterMap_ids_sublist _ st.videos hid
      intro p w hp hfw
      by_cases hpass : passesCategory cat p.2
      · rw [if_pos hpass] at hfw
        simp only [Option.some_inj] at hfw
        rw [← hfw]
      · rw [if_neg hpass] at hfw; simp at hfw
    have hnd := List.Nodup.sublist htr hk
    apply List.Nodup.sublist (List.Sublist.map _ (List.take_sublist _ _))
    rw [List.map_map]
    have hcongr : ∀ w ∈ (List.insertionSort
        (fun a b : Video => b.viewCount ≤ a.viewCount)
        (st.videos.filterMap (fun p =>
          if passesCategory cat p.2 then some p.2 else none))),
        ((fun w : Video => w.id) ∘ (fun w : Video =>
          let log_views : ℚ := if 0 < w.viewCount then f (w.viewCount : ℚ) else 0
          { w with score := some (log_views / 20) })) w = w.id :=
      fun w _ => rfl
    rw [List.map_congr_left hcongr]
    exact ((List.perm_insertionSort _ _).map (fun w : Video => w.id)).nodup_iff.mpr hnd

theorem hybridMerge_keys_nodup (content_recs collab_recs : List Video) :
    ((hybridMerge content_recs collab_recs).map (·.1)).Nodup := by
  unfold hybridMerge
  simp only []
  refine foldl_inv (fun d : List (String × HybridEntry) => (d.map (·.1)).Nodup)
    _ _ _ ?_ ?_
  · refine foldl_inv (fun d : List (String × HybridEntry) => (d.map (·.1)).Nodup)
      _ _ [] (by simp) ?_
    intro d v _ hd
    exact dictInsert_keys_nodup hd
  · intro d v _ hd
    cases hg : dictGet d v.id with
    | some e =>
      simp only []
      exact dictInsert_keys_nodup hd
    | none =>
      simp only []
      exact dictInsert_keys_nodup hd

theorem hybridMerge_entry_ids (content_recs collab_recs : List Video) :
    ∀ q ∈ hybridMerge content_recs collab_recs, q.2.video.id = q.1 := by
  unfold hybridMerge
  simp only []
  refine foldl_inv
    (fun d : List (String × HybridEntry) => ∀ q ∈ d, q.2.video.id = q.1)
    _ _ _ ?_ ?_
  · refine foldl_inv
      (fun d : List (String × HybridEntry) => ∀ q ∈ d, q.2.video.id = q.1)
      _ _ [] (by simp) ?_
    intro d v _ hd
    exact dictInsert_forall hd rfl
  · intro d v _ hd
    cases hg : dictGet d v.id with
    | some e =>
      simp only []
      have hev : e.video.id = v.id := hd (v.id, e) (dictGet_mem hg)
      exact dictInsert_forall hd hev
    | none =>
      simp only []
      exact dictInsert_forall hd rfl

/-- C9: the hybrid recommendation list (whenever the call returns one)
contains no two records with the same id: the merge is keyed by id, and each
single-source result list is itself duplicate-free. -/
theorem c9_hybrid_nodup (st : RecommendationEngine) (f : ℚ → ℚ)
    (hid : IdKeyed st) (hk : KeysNodup st) (hvn : st.video_ids.Nodup)
    (uo vo cat : Option String) (lim : ℕ) :
    ∀ l, (get_hybrid_recommendations st f uo vo cat lim).1 = Except.ok l →
      nodupIds l := by
  intro l h
  unfold get_hybrid_recommendations at h
  cases hcr : (if isTruthy vo ∧ (dictGet st.videos (vo.getD "")).isSome then
      (get_content_based_recommendations st (vo.getD "") lim cat).1
    else Except.ok []) with
  | error e => rw [hcr] at h; simp at h
  | ok content_recs =>
    rw [hcr] at h
    simp only [] at h
    have hcnod : nodupIds content_recs := by
      by_cases hcall : isTruthy vo ∧ (dictGet st.videos (vo.getD "")).isSome
      · rw [if_pos hcall] at hcr
        exact content_nodupIds st hid hk hvn (vo.getD "") lim cat
          content_recs hcr
      · rw [if_neg hcall] at hcr
        simp only [Except.ok.injEq] at hcr
        rw [← hcr]; simp [nodupIds]
    by_cases hboth : content_recs ≠ [] ∧
        (if isTruthy uo ∧ (dictGet st.watch_history (uo.getD "")).isSome then
          (get_collaborative_recommendations st (uo.getD "") lim cat).1
        else []) ≠ []
    · rw [if_pos hboth] at h
      simp only [Except.ok.injEq] at h
      rw [← h]
      set CR := (if isTruthy uo ∧ (dictGet st.watch_history (uo.getD "")).isSome then
          (get_collaborative_recommendations st (uo.getD "") lim cat).1
        else []) with hCR
      unfold nodupIds
      apply nodup_map_sortTake
      rw [List.map_map]
      have hmapeq : (hybridMerge content_recs CR).map
          (fun q : String × HybridEntry => q.2.video.id) =
          (hybridMerge content_recs CR).map (fun q => q.1) :=
        List.map_congr_left
          (fun q hq => hybridMerge_entry_ids content_recs CR q hq)
      show ((hybridMerge content_recs CR).map
        (fun q : String × HybridEntry => q.2.video.id)).Nodup
      rw [hmapeq]
      exact hybridMerge_keys_nodup content_recs CR
    · rw [if_neg hboth] at h
      by_cases hcne : content_recs ≠ []
      · rw [if_pos hcne] at h
        simp only [Except.ok.injEq] at h
        rw [← h]
        exact hcnod
      · rw [if_neg hcne] at h
        by_cases hcol : (if isTruthy uo ∧
            (dictGet st.watch_history (uo.getD "")).isSome then
              (get_collaborative_recommendations st (uo.getD "") lim cat).1
            else []) ≠ []
        · rw [if_pos hcol] at h
          simp only [Except.ok.injEq] at h
          rw [← h]
          by_cases hcall : isTruthy uo ∧
              (dictGet st.watch_history (uo.getD "")).isSome
          · rw [if_pos hcall]
            exact collab_nodupIds st hid (uo.getD "") lim cat
          · rw [if_neg hcall]; simp [nodupIds]
        · rw [if_neg hcol] at h
          simp only [Except.ok.injEq] at h
          rw [← h]
          exact trending_nodupIds st hid hk f cat lim

/-- C9 witness: concrete instance — with neither a user nor a source video
the hybrid call falls back to trending, and the returned ids are distinct. -/
theorem c9_witness :
    nodupIds [{ mkVideo "b" "c3" "m" [] 3 with score := some (3/20) },
      { mkVideo "a" "c2" "x" [] 2 with score := some (1/10) },
      { mkVideo "s" "c1" "x" [] 1 with score := some (1/20) }] :=
  c9_hybrid_nodup engineC3 (fun x => x) (by unfold IdKeyed; decide)
    (by unfold KeysNodup; decide) (by decide) none none none 8
    [{ mkVideo "b" "c3" "m" [] 3 with score := some (3/20) },
      { mkVideo "a" "c2" "x" [] 2 with score := some (1/10) },
      { mkVideo "s" "c1" "x" [] 1 with score := some (1/20) }]
    (by norm_num +decide [get_hybrid_recommendations, get_trending_videos,
      engineC3, mkVideo, dictGet, isTruthy, passesCategory,
      List.insertionSort, List.orderedInsert, scoreKey])
